import Mathlib

/-!
Verification of the plasma storage engine (nitro repository) against its
natural-language specification.  The definitions below are shallow embeddings
of the Go source: machine integers are modelled as `Nat`/`Int` with explicit
wrapping, byte buffers as `List Nat`, and pointer-linked delta chains as
inductive types.  Each claim of the specification is settled by a theorem
about these definitions.
-/

set_option maxHeartbeats 1000000

namespace Plasma

/-! ## Machine-integer helpers

The Go code manipulates `uint16`, `uint32`, `uint64` and platform `int`
(64-bit) values.  We model `uintN` values as `Nat` and the `int` conversions
and arithmetic with explicit two's-complement wrapping. -/

/-- Conversion of a `uint64` value (a `Nat` below `2^64`) to a Go `int`
(64-bit two's complement), as in `int(b.Sn())`. -/
def toInt64 (n : Nat) : Int :=
  if n < 2 ^ 63 then (n : Int) else (n : Int) - 2 ^ 64

/-- Wrap an integer into the 64-bit two's-complement range
`[-2^63, 2^63)`, modelling overflow of Go `int` arithmetic. -/
def wrap64 (z : Int) : Int :=
  (z + 2 ^ 63) % 2 ^ 64 - 2 ^ 63

/-! ## Items (item.go)

An item carries an insert/tombstone flag, a has-value flag, a key (byte
string), a 64-bit sequence number and an optional value.  The bit-packed
layout of the Go struct is modelled by its accessor-level content. -/

/-- In-memory item: the fields exposed by the accessors `IsInsert`,
`HasValue`, `Key`, `Sn` and `Value` of `item.go`. -/
structure Item where
  ins : Bool
  hasVal : Bool
  key : List Nat
  sn : Nat
  val : List Nat
  deriving DecidableEq, Repr

/-- An item pointer: either one of the two sentinels `skiplist.MinItem` /
`skiplist.MaxItem` or a real item. -/
inductive IPtr where
  | minItem
  | maxItem
  | real (itm : Item)
  deriving DecidableEq, Repr

/-- `bytes.Compare` on byte strings, returning -1/0/1. -/
def bytesCompare : List Nat → List Nat → Int
  | [], [] => 0
  | [], _ :: _ => -1
  | _ :: _, [] => 1
  | a :: as, b :: bs =>
    if a < b then -1 else if b < a then 1 else bytesCompare as bs

/-- `cmpItem` from item.go: sentinels order below/above everything; real
items compare by key bytes, and for equal keys by
`int(b.Sn()) - int(a.Sn())` in wrapping machine-int arithmetic. -/
def cmpItem : IPtr → IPtr → Int
  | a, b =>
    if a = .minItem ∨ b = .maxItem then -1
    else if a = .maxItem ∨ b = .minItem then 1
    else
      match a, b with
      | .real x, .real y =>
        let cv := bytesCompare x.key y.key
        if cv = 0 then wrap64 (toInt64 y.sn - toInt64 x.sn) else cv
      | _, _ => 0

theorem bytesCompare_self (l : List Nat) : bytesCompare l l = 0 := by
  induction l with
  | nil => rfl
  | cons a as ih => simp [bytesCompare, ih]

/-- C10: for non-sentinel items with byte-wise equal keys, `cmpItem a b`
equals the wrapped machine-int value of `int(b.Sn()) - int(a.Sn())`; when
the sequence numbers differ and their difference fits in a machine int, the
item with the larger sequence number compares as smaller, ordering equal
keys newest-first. -/
theorem cmpItem_equal_keys (x y : Item) (hk : x.key = y.key)
    (hx : x.sn < 2 ^ 64) (hy : y.sn < 2 ^ 64) :
    cmpItem (.real x) (.real y) = wrap64 (toInt64 y.sn - toInt64 x.sn) ∧
    (((y.sn : Int) - (x.sn : Int)).natAbs < 2 ^ 63 →
      ((x.sn < y.sn → 0 < cmpItem (.real x) (.real y)) ∧
       (y.sn < x.sn → cmpItem (.real x) (.real y) < 0))) := by
  have hne : ¬((IPtr.real x) = IPtr.minItem ∨ (IPtr.real y) = IPtr.maxItem) := by
    simp
  have hne2 : ¬((IPtr.real x) = IPtr.maxItem ∨ (IPtr.real y) = IPtr.minItem) := by
    simp
  have hcmp : cmpItem (.real x) (.real y) = wrap64 (toInt64 y.sn - toInt64 x.sn) := by
    simp only [cmpItem, hne, hne2, if_false]
    rw [hk, bytesCompare_self]
    simp
  refine ⟨hcmp, fun hfit => ?_⟩
  rw [hcmp]
  unfold wrap64 toInt64
  have h1 : ((y.sn : Int) - (x.sn : Int)).natAbs < 2 ^ 63 := hfit
  have h2 : (x.sn : Int) < 2 ^ 64 := by exact_mod_cast hx
  have h3 : (y.sn : Int) < 2 ^ 64 := by exact_mod_cast hy
  constructor
  · intro hlt
    have hlt' : (x.sn : Int) < (y.sn : Int) := by exact_mod_cast hlt
    split <;> split <;> omega
  · intro hlt
    have hlt' : (y.sn : Int) < (x.sn : Int) := by exact_mod_cast hlt
    split <;> split <;> omega

/-- Witness for `cmpItem_equal_keys` at concrete items. -/
theorem cmpItem_equal_keys_witness :
    0 < cmpItem (.real ⟨true, false, [1], 3, []⟩) (.real ⟨true, false, [1], 8, []⟩) := by
  have h := cmpItem_equal_keys ⟨true, false, [1], 3, []⟩ ⟨true, false, [1], 8, []⟩
    (by decide) (by decide) (by decide)
  exact (h.2 (by decide)).1 (by decide)

/-! ## LookupKV (mvcc.go lines 186-204)

`Writer.LookupKV` performs a page-level lookup and maps its outcome to a
value or a typed error.  The page-level lookup is modelled by its outcome:
`none` when the newest visible write for the key is a delete-delta or the
key was never written, `some itm` when lookup surfaced the item `itm`
(which can be a base-page tombstone, since the lookup filter does not drop
tombstones stored in a base page). -/

/-- The two lookup error kinds `ErrItemNotFound` / `ErrItemNoValue`. -/
inductive LKErr where
  | itemNotFound
  | itemNoValue
  deriving DecidableEq, Repr

/-- `Writer.LookupKV` result mapping, translated from mvcc.go lines
186-204: a nil or non-insert item yields `ErrItemNotFound`; an insert with
a value yields the value; an insert without a value yields
`ErrItemNoValue`. -/
def LookupKV (o : Option Item) : Except LKErr (List Nat) :=
  match o with
  | none => .error .itemNotFound
  | some itm =>
    if ¬ itm.ins then .error .itemNotFound
    else if itm.hasVal then .ok itm.val
    else .error .itemNoValue

/-- C3 counterexample: when the newest visible item for the key is a
tombstone, `LookupKV` returns `ErrItemNotFound`, not `ErrItemNoValue` as
the claim states. -/
theorem lookupKV_tombstone_counterexample :
    LookupKV (some ⟨false, false, [1], 5, []⟩) = .error .itemNotFound ∧
    LookupKV (some ⟨false, false, [1], 5, []⟩) ≠ .error .itemNoValue := by
  constructor
  · rfl
  · intro h
    simp [LookupKV] at h

/-- C3 (amended): `LookupKV` returns `ErrItemNotFound` when no item exists
or when the newest visible item is a tombstone; `ErrItemNoValue` exactly
when the newest visible item is an insert carrying no value; and the stored
value otherwise. -/
theorem lookupKV_cases (o : Option Item) :
    (o = none → LookupKV o = .error .itemNotFound) ∧
    (∀ itm, o = some itm → itm.ins = false → LookupKV o = .error .itemNotFound) ∧
    (∀ itm, o = some itm → itm.ins = true → itm.hasVal = false →
      LookupKV o = .error .itemNoValue) ∧
    (∀ itm, o = some itm → itm.ins = true → itm.hasVal = true →
      LookupKV o = .ok itm.val) := by
  refine ⟨fun h => by simp [h, LookupKV], ?_, ?_, ?_⟩
  · intro itm h hins
    simp [h, LookupKV, hins]
  · intro itm h hins hv
    simp [h, LookupKV, hins, hv]
  · intro itm h hins hv
    simp [h, LookupKV, hins, hv]

/-- Witness for `lookupKV_cases` at a concrete item. -/
theorem lookupKV_cases_witness :
    LookupKV (some ⟨true, true, [1], 5, [7]⟩) = .ok [7] :=
  (lookupKV_cases (some ⟨true, true, [1], 5, [7]⟩)).2.2.2 ⟨true, true, [1], 5, [7]⟩ rfl rfl rfl

/-! ## Byte-buffer helpers (encoding/binary, big endian)

Buffers are lists of bytes (`Nat` below 256).  `writeAt` models Go `copy`
into a slice of a fixed-length buffer (copying stops at the end of the
destination). -/

/-- Big-endian `PutUint16`. -/
def beBytes16 (v : Nat) : List Nat := [v / 2 ^ 8 % 256, v % 256]

/-- Big-endian `PutUint32`. -/
def beBytes32 (v : Nat) : List Nat :=
  [v / 2 ^ 24 % 256, v / 2 ^ 16 % 256, v / 2 ^ 8 % 256, v % 256]

/-- Big-endian `PutUint64`. -/
def beBytes64 (v : Nat) : List Nat :=
  [v / 2 ^ 56 % 256, v / 2 ^ 48 % 256, v / 2 ^ 40 % 256, v / 2 ^ 32 % 256,
   v / 2 ^ 24 % 256, v / 2 ^ 16 % 256, v / 2 ^ 8 % 256, v % 256]

/-- Overwrite bytes of `bs` starting at `pos` with `vs` (Go `copy`
semantics: stops at the end of `bs`). -/
def writeAt (bs : List Nat) (pos : Nat) (vs : List Nat) : List Nat :=
  bs.take pos ++ vs.take (bs.length - pos) ++ bs.drop (pos + vs.length)

/-- Big-endian `Uint16` read at `pos`. -/
def readUint16 (bs : List Nat) (pos : Nat) : Nat :=
  bs.getD pos 0 * 2 ^ 8 + bs.getD (pos + 1) 0

/-- Big-endian `Uint32` read at `pos`. -/
def readUint32 (bs : List Nat) (pos : Nat) : Nat :=
  bs.getD pos 0 * 2 ^ 24 + bs.getD (pos + 1) 0 * 2 ^ 16 +
  bs.getD (pos + 2) 0 * 2 ^ 8 + bs.getD (pos + 3) 0

/-- Big-endian `Uint64` read at `pos`. -/
def readUint64 (bs : List Nat) (pos : Nat) : Nat :=
  bs.getD pos 0 * 2 ^ 56 + bs.getD (pos + 1) 0 * 2 ^ 48 +
  bs.getD (pos + 2) 0 * 2 ^ 40 + bs.getD (pos + 3) 0 * 2 ^ 32 +
  bs.getD (pos + 4) 0 * 2 ^ 24 + bs.getD (pos + 5) 0 * 2 ^ 16 +
  bs.getD (pos + 6) 0 * 2 ^ 8 + bs.getD (pos + 7) 0

/-! ## Recovery points (mvcc.go lines 317-359) -/

/-- A recovery point: sequence number and user metadata. -/
structure RecoveryPoint where
  sn : Nat
  meta : List Nat
  deriving DecidableEq, Repr

/-- Body-writing loop of `marshalRPs`: for each recovery point, a 32-bit
entry length, the 64-bit sequence number, and the metadata bytes. -/
def marshalRPsGo : List Nat → Nat → List RecoveryPoint → List Nat
  | bs, _, [] => bs
  | bs, off, rp :: rest =>
    let l := 4 + 8 + rp.meta.length
    let bs1 := writeAt bs off (beBytes32 l)
    let bs2 := writeAt bs1 (off + 4) (beBytes64 rp.sn)
    let bs3 := writeAt bs2 (off + 12) rp.meta
    marshalRPsGo bs3 (off + 12 + rp.meta.length) rest

/-- `marshalRPs` from mvcc.go: allocates `2+2+l` bytes, writes the version
at `bs[:2]`, then writes the recovery-point count again at `bs[:2]`
(the source writes both fields at offset 0 while its `offset` counter is
advanced unused), then the entries starting at offset 4. -/
def marshalRPs (rps : List RecoveryPoint) (version : Nat) : List Nat :=
  let l := (rps.map (fun rp => 4 + 8 + rp.meta.length)).sum
  let bs := List.replicate (2 + 2 + l) 0
  let bs1 := writeAt bs 0 (beBytes16 version)
  let bs2 := writeAt bs1 0 (beBytes16 rps.length)
  marshalRPsGo bs2 4 rps

/-- Entry-reading loop of `unmarshalRPs`. -/
def unmarshalRPsGo : List Nat → Nat → Nat → List RecoveryPoint
  | _, _, 0 => []
  | bs, off, n + 1 =>
    let l := readUint32 bs off
    let endOff := off + l
    let sn := readUint64 bs (off + 4)
    let meta := (bs.drop (off + 12)).take (endOff - (off + 12))
    ⟨sn, meta⟩ :: unmarshalRPsGo bs endOff n

/-- `unmarshalRPs` from mvcc.go: reads the version at `bs[:2]` and the
count also at `bs[:2]` (mirroring the offset slip of `marshalRPs`), then
the entries starting at offset 4. -/
def unmarshalRPs (bs : List Nat) : Nat × List RecoveryPoint :=
  (readUint16 bs 0, unmarshalRPsGo bs 4 (readUint16 bs 0))

/-- C7: the marshal/unmarshal round trip destroys the version: marshalling
one recovery point under version 5 and unmarshalling returns version 1
(the recovery-point count, which overwrote the version bytes), while the
sequence numbers and metadata round-trip intact. -/
theorem marshalRPs_roundtrip_loses_version :
    unmarshalRPs (marshalRPs [⟨7, [9, 9]⟩] 5) = (1, [⟨7, [9, 9]⟩]) ∧
    (unmarshalRPs (marshalRPs [⟨7, [9, 9]⟩] 5)).1 ≠ 5 := by
  constructor <;> decide

/-! ## Page state (page.go lines 501-531)

A page state is a `uint16`: 14-bit version, an evicted bit (0x4000) and a
flushed bit (0x8000). -/

/-- `pageState.GetVersion`: the low 14 bits. -/
def stGetVersion (s : Nat) : Nat := s % 2 ^ 14

/-- `pageState.IsFlushed`: bit 15. -/
def stIsFlushed (s : Nat) : Bool := s &&& 2 ^ 15 ≠ 0

/-- `pageState.SetFlushed`: or with 0x8000. -/
def stSetFlushed (s : Nat) : Nat := s ||| 2 ^ 15

/-- `pageState.IsEvicted`: bit 14. -/
def stIsEvicted (s : Nat) : Bool := s &&& 2 ^ 14 ≠ 0

/-- `pageState.SetEvicted`. -/
def stSetEvicted (s : Nat) (v : Bool) : Nat :=
  if v then s ||| 2 ^ 14 else s &&& 0xbfff

/-- `pageState.IncrVersion`: the whole state is replaced by the
incremented 14-bit version (this clears the evicted and flushed bits). -/
def stIncrVersion (s : Nat) : Nat := (s % 2 ^ 14 + 1) % 2 ^ 14

theorem stIsEvicted_setEvicted (s : Nat) :
    stIsEvicted (stSetEvicted s true) = true := by
  simp only [stIsEvicted, stSetEvicted, if_pos]
  rw [Nat.and_two_pow]
  simp only [Nat.testBit_or]
  have h : Nat.testBit 16384 14 = true := by decide
  simp only [show (2:Nat)^14 = 16384 by decide, h, Bool.or_true, Bool.toNat_true]
  decide

theorem stIsEvicted_of_lt (s : Nat) (h : s < 2 ^ 14) :
    stIsEvicted s = false := by
  simp only [stIsEvicted]
  rw [Nat.and_two_pow]
  simp [Nat.testBit_lt_two_pow h]

theorem stIncrVersion_lt (s : Nat) : stIncrVersion s < 2 ^ 14 :=
  Nat.mod_lt _ (by decide)

/-! ## Delta chains (page.go)

A page is a singly-linked chain of deltas rooted at a head pointer.  Every
delta embeds the `pageDelta` header `{op, chainLen, numItems, state, next,
hiItm, rightSibling}`; the operation-specific payloads are carried by the
constructors.  Items are modelled as `Nat` keys ordered by the configured
compare function (the repository's integer test configuration); index keys
are tagged min/max/item as in `marshalIndexKey`.  Swap-in deltas are not
modelled: they only ever sit above a swapped-out chain, which none of the
modelled operations create. -/

/-- A tagged index key: the `MinItem`/`MaxItem` sentinels or a real key. -/
inductive IKey where
  | min
  | max
  | key (k : Nat)
  deriving DecidableEq, Repr

/-- `pg.cmp itm hi < 0` for a real item against an index key (sentinels
compare as in `cmpItem`/`CompareInt`). -/
def ltK (itm : Nat) (hi : IKey) : Bool :=
  match hi with
  | .max => true
  | .min => false
  | .key m => itm < m

/-- The `pageDelta` header fields shared by every delta (minus `op` and
`next`, which are represented by the chain constructors). -/
structure Hdr where
  chainLen : Nat
  numItems : Nat
  state : Nat
  hiItm : IKey
  rightSibling : Option Nat
  deriving DecidableEq, Repr

/-- A delta chain.  `basePg` and `swapout` are chain-terminal; `nilC`
models a nil head pointer. -/
inductive Chain where
  | nilC
  | recD (h : Hdr) (isIns : Bool) (itm : Nat) (next : Chain)
  | split (h : Hdr) (itm : Nat) (next : Chain)
  | merge (h : Hdr) (itm : IKey) (sibling : Chain) (next : Chain)
  | basePg (h : Hdr) (items : List Nat)
  | flushD (h : Hdr) (offset : Nat) (dataSz : Nat) (numSegs : Nat) (isReloc : Bool) (next : Chain)
  | rollback (h : Hdr) (rbStart : Nat) (rbEnd : Nat) (next : Chain)
  | removeD (h : Hdr) (next : Chain)
  | metaD (h : Hdr) (next : Chain)
  | swapout (h : Hdr) (offset : Nat) (numSegs : Nat)
  deriving DecidableEq, Repr

/-- The header carried by the head delta (`none` for a nil head). -/
def headerOf : Chain → Option Hdr
  | .nilC => none
  | .recD h _ _ _ => some h
  | .split h _ _ => some h
  | .merge h _ _ _ => some h
  | .basePg h _ => some h
  | .flushD h _ _ _ _ _ => some h
  | .rollback h _ _ _ => some h
  | .removeD h _ => some h
  | .metaD h _ => some h
  | .swapout h _ _ => some h

/-- A page: its low key and the delta-chain head. -/
structure PageR where
  low : IKey
  head : Chain
  deriving DecidableEq, Repr

/-- `page.Merge` together with `newMergePageDelta` (page.go lines 711-725
and 962-967): prepend a merge delta whose header copies the parent head,
with the sibling's high key and right-sibling, summed counters
(`uint16` arithmetic), separator item `pg.head.hiItm`, and whose
`mergeSibling` field is the sibling page's chain head.  `none` models the
nil-pointer dereference when either head is nil. -/
def Merge (pg sp : PageR) : Option PageR :=
  match headerOf pg.head, headerOf sp.head with
  | some hH, some hS =>
    some { pg with
      head := .merge
        ⟨(hH.chainLen + hS.chainLen + 1) % 2 ^ 16,
         (hH.numItems + hS.numItems) % 2 ^ 16,
         hH.state, hS.hiItm, hS.rightSibling⟩
        hH.hiItm sp.head pg.head }
  | _, _ => none

/-- C5: after `p.Merge(r)` the head of `p` is a merge delta whose
`chainLen` is `p.chainLen + r.chainLen + 1`, whose `numItems` is
`p.numItems + r.numItems`, whose `mergeSibling` points at `r`'s chain
head, and whose right-sibling is `r`'s right-sibling. -/
theorem merge_head (pg sp : PageR) (hH hS : Hdr)
    (h1 : headerOf pg.head = some hH) (h2 : headerOf sp.head = some hS)
    (hc : hH.chainLen + hS.chainLen + 1 < 2 ^ 16)
    (hn : hH.numItems + hS.numItems < 2 ^ 16) :
    Merge pg sp = some { pg with
      head := .merge
        ⟨hH.chainLen + hS.chainLen + 1, hH.numItems + hS.numItems,
         hH.state, hS.hiItm, hS.rightSibling⟩
        hH.hiItm sp.head pg.head } := by
  simp only [Merge, h1, h2, Nat.mod_eq_of_lt hc, Nat.mod_eq_of_lt hn]

/-- Witness for `merge_head` at concrete pages. -/
theorem merge_head_witness :
    Merge ⟨.min, .basePg ⟨0, 2, 0, .key 5, some 1⟩ [1, 2]⟩
          ⟨.key 5, .basePg ⟨0, 3, 0, .key 9, some 2⟩ [5, 6, 7]⟩ =
    some ⟨.min, .merge ⟨1, 5, 0, .key 9, some 2⟩ (.key 5)
          (.basePg ⟨0, 3, 0, .key 9, some 2⟩ [5, 6, 7])
          (.basePg ⟨0, 2, 0, .key 5, some 1⟩ [1, 2])⟩ := by
  exact merge_head ⟨.min, .basePg ⟨0, 2, 0, .key 5, some 1⟩ [1, 2]⟩
    ⟨.key 5, .basePg ⟨0, 3, 0, .key 9, some 2⟩ [5, 6, 7]⟩
    ⟨0, 2, 0, .key 5, some 1⟩ ⟨0, 3, 0, .key 9, some 2⟩ rfl rfl (by decide) (by decide)

/-- `page.Evict` (page.go lines 1560-1578): free the chain, build a
swapout delta copying the head header, set the evicted bit, record the
LSS offset; when `numSegments` is zero, increment the version (which
replaces the whole state word) and store one segment; the next pointer is
nil. -/
def Evict (pg : PageR) (offset : Nat) (numSegments : Nat) : Option PageR :=
  match headerOf pg.head with
  | some hH =>
    let st1 := stSetEvicted hH.state true
    let st2 := if numSegments = 0 then stIncrVersion st1 else st1
    let nseg := if numSegments = 0 then 1 else numSegments
    some { pg with
      head := .swapout ⟨hH.chainLen, hH.numItems, st2, hH.hiItm, hH.rightSibling⟩ offset nseg }
  | none => none

/-- C6 counterexample: evicting with zero segments leaves the evicted bit
clear — `IncrVersion` replaces the whole state word with the bare
incremented version, wiping the bit set just before. -/
theorem evict_zero_segments_counterexample :
    Evict ⟨.min, .basePg ⟨0, 2, 0, .max, none⟩ [1, 2]⟩ 9 0 =
      some ⟨.min, .swapout ⟨0, 2, 1, .max, none⟩ 9 1⟩ ∧
    stIsEvicted 1 = false := by
  constructor <;> decide

/-- C6 (amended): after `Evict(offset, numSegments)` the head is a swapout
delta with a nil next pointer carrying the given LSS offset; the evicted
bit is set whenever `numSegments` is nonzero, while for `numSegments = 0`
the state becomes the bare incremented version with the evicted (and
flushed) bits cleared and the stored segment count is one. -/
theorem evict_head (pg : PageR) (offset numSegments : Nat) (hH : Hdr)
    (h1 : headerOf pg.head = some hH) :
    (numSegments ≠ 0 →
      Evict pg offset numSegments = some { pg with
        head := .swapout ⟨hH.chainLen, hH.numItems, stSetEvicted hH.state true,
          hH.hiItm, hH.rightSibling⟩ offset numSegments } ∧
      stIsEvicted (stSetEvicted hH.state true) = true) ∧
    (numSegments = 0 →
      Evict pg offset numSegments = some { pg with
        head := .swapout ⟨hH.chainLen, hH.numItems,
          stIncrVersion (stSetEvicted hH.state true),
          hH.hiItm, hH.rightSibling⟩ offset 1 } ∧
      stIsEvicted (stIncrVersion (stSetEvicted hH.state true)) = false) := by
  constructor
  · intro hz
    refine ⟨?_, stIsEvicted_setEvicted _⟩
    simp only [Evict, h1, if_neg hz]
  · intro hz
    subst hz
    refine ⟨?_, stIsEvicted_of_lt _ (stIncrVersion_lt _)⟩
    simp [Evict, h1]

/-- Witness for `evict_head` at a concrete page. -/
theorem evict_head_witness :
    Evict ⟨.min, .basePg ⟨0, 2, 0, .max, none⟩ [1, 2]⟩ 9 3 =
      some ⟨.min, .swapout ⟨0, 2, stSetEvicted 0 true, .max, none⟩ 9 3⟩ ∧
    stIsEvicted (stSetEvicted 0 true) = true :=
  (evict_head ⟨.min, .basePg ⟨0, 2, 0, .max, none⟩ [1, 2]⟩ 9 3
    ⟨0, 2, 0, .max, none⟩ rfl).1 (by decide)

/-! ## Recovery right-sibling walk (swapper.go doRecovery, lines 635-660)

After the log replay, the pages indexed by the separator index are visited
in key order.  Modelled from the spec: `PageVisitor` (not under src/)
yields the indexed pages in key order; here they are given as a list in
that order, page ids being positions in the list.  For each adjacent pair
the code compares the predecessor's high key with the successor's low key
and panics with "found missing page" on a mismatch; the predecessor's
right-sibling is set to the successor; at the end the last page's
right-sibling is set to the end sentinel and the code panics with
"invalid last page" unless its high key is the `MaxItem` sentinel. -/

/-- The low/high keys of a page as seen by the recovery walk. -/
structure RPg where
  low : IKey
  hi : IKey
  deriving DecidableEq, Repr

/-- `s.cmp` on index keys (sentinel handling as in `cmpItem`). -/
def cmpIK (a b : IKey) : Int :=
  if a = .min ∨ b = .max then -1
  else if a = .max ∨ b = .min then 1
  else
    match a, b with
    | .key x, .key y => if x < y then -1 else if y < x then 1 else 0
    | _, _ => 0

/-- Outcome of the right-sibling walk: success with the sibling
assignment (`none` is the end sentinel), one of the two panics of the
source, or the `ErrInvalidSnapshot` error (which the walk never
produces — it is returned only by snapshot iterators). -/
inductive RErr where
  | missingPage
  | invalidLastPage
  | invalidSnapshot
  deriving DecidableEq, Repr

/-- Loop body of the right-sibling walk, carrying the previously visited
page and its index. -/
def siblingWalkGo : RPg → Nat → List RPg → Except RErr (List (RPg × Option Nat))
  | lastPg, _, [] =>
    if lastPg.hi = .max then .ok [(lastPg, none)] else .error .invalidLastPage
  | lastPg, i, pg :: rest =>
    if cmpIK lastPg.hi pg.low ≠ 0 then .error .missingPage
    else ((lastPg, some (i + 1)) :: ·) <$> siblingWalkGo pg (i + 1) rest

/-- The right-sibling initialisation pass of `doRecovery`, over the pages
in key order. -/
def siblingWalk : List RPg → Except RErr (List (RPg × Option Nat))
  | [] => .ok []
  | pg :: rest => siblingWalkGo pg 0 rest

/-- The key-coverage invariant the walk verifies: adjacent pages share
their boundary key and the last page's high key is the MAX sentinel. -/
def chainOk : List RPg → Bool
  | [] => true
  | [p] => p.hi = .max
  | p :: q :: rest => cmpIK p.hi q.low = 0 && chainOk (q :: rest)

/-- The expected sibling assignment: each page points at its successor,
the last page at the end sentinel. -/
def linkNexts : Nat → List RPg → List (RPg × Option Nat)
  | _, [] => []
  | _, [p] => [(p, none)]
  | i, p :: q :: rest => (p, some (i + 1)) :: linkNexts (i + 1) (q :: rest)

theorem siblingWalkGo_cases (lastPg : RPg) (i : Nat) (rest : List RPg) :
    (chainOk (lastPg :: rest) = true ∧
     siblingWalkGo lastPg i rest = .ok (linkNexts i (lastPg :: rest))) ∨
    (chainOk (lastPg :: rest) = false ∧
     (siblingWalkGo lastPg i rest = .error .missingPage ∨
      siblingWalkGo lastPg i rest = .error .invalidLastPage)) := by
  induction rest generalizing lastPg i with
  | nil =>
    by_cases hm : lastPg.hi = .max
    · exact .inl ⟨by simp [chainOk, hm], by simp [siblingWalkGo, hm, linkNexts]⟩
    · exact .inr ⟨by simp [chainOk, hm], .inr (by simp [siblingWalkGo, hm])⟩
  | cons q rest ih =>
    by_cases hc : cmpIK lastPg.hi q.low = 0
    · have hgo : siblingWalkGo lastPg i (q :: rest) =
          ((lastPg, some (i + 1)) :: ·) <$> siblingWalkGo q (i + 1) rest := by
        simp [siblingWalkGo, hc]
      rcases ih q (i + 1) with ⟨h1, h2⟩ | ⟨h1, h2⟩
      · refine .inl ⟨by simp [chainOk, hc, h1], ?_⟩
        rw [hgo, h2]
        rfl
      · refine .inr ⟨by simp [chainOk, h1], ?_⟩
        rcases h2 with h2 | h2
        · exact .inl (by rw [hgo, h2]; rfl)
        · exact .inr (by rw [hgo, h2]; rfl)
    · exact .inr ⟨by simp [chainOk, hc], .inl (by simp [siblingWalkGo, hc])⟩

/-- C8 counterexample: when the key-coverage invariant fails (a gap
between high key 5 and low key 7), the walk panics with "found missing
page"; it does not fail with the `ErrInvalidSnapshot` error the claim
names. -/
theorem siblingWalk_gap_counterexample :
    siblingWalk [⟨.min, .key 5⟩, ⟨.key 7, .max⟩] = .error .missingPage ∧
    siblingWalk [⟨.min, .key 5⟩, ⟨.key 7, .max⟩] ≠ .error .invalidSnapshot := by
  refine ⟨rfl, ?_⟩
  intro h
  rw [show siblingWalk [⟨.min, .key 5⟩, ⟨.key 7, .max⟩] = .error .missingPage from rfl] at h
  injection h with h2
  exact RErr.noConfusion h2

/-- C8 (amended): the pass sets right-siblings so that each page points at
its key-order successor and the last at the end sentinel, and it succeeds
exactly when every adjacent pair shares its boundary key and the last
page's high key is MAX; when the invariant fails it panics ("found
missing page" / "invalid last page") — it never produces the
`ErrInvalidSnapshot` error. -/
theorem siblingWalk_props (pages : List RPg) :
    (chainOk pages = true → siblingWalk pages = .ok (linkNexts 0 pages)) ∧
    (∀ l, siblingWalk pages = .ok l →
      chainOk pages = true ∧ l = linkNexts 0 pages) ∧
    siblingWalk pages ≠ .error .invalidSnapshot := by
  match pages with
  | [] =>
    refine ⟨fun _ => rfl, ?_, by intro h; cases h⟩
    intro l h
    simp only [siblingWalk, Except.ok.injEq] at h
    simp [chainOk, linkNexts, ← h]
  | pg :: rest =>
    rcases siblingWalkGo_cases pg 0 rest with ⟨h1, h2⟩ | ⟨h1, h2⟩
    · refine ⟨fun _ => h2, fun l h => ?_, ?_⟩
      · rw [show siblingWalk (pg :: rest) = siblingWalkGo pg 0 rest from rfl, h2] at h
        injection h with h3
        exact ⟨h1, h3.symm⟩
      · rw [show siblingWalk (pg :: rest) = siblingWalkGo pg 0 rest from rfl, h2]
        intro h
        cases h
    · refine ⟨fun h => ?_, fun l h => ?_, ?_⟩
      · rw [h] at h1
        cases h1
      · rw [show siblingWalk (pg :: rest) = siblingWalkGo pg 0 rest from rfl] at h
        rcases h2 with h2 | h2 <;> rw [h2] at h <;> cases h
      · rw [show siblingWalk (pg :: rest) = siblingWalkGo pg 0 rest from rfl]
        rcases h2 with h2 | h2 <;> rw [h2] <;> intro h <;>
          (injection h with h3; exact RErr.noConfusion h3)

/-- Witness for `siblingWalk_props` on a valid page sequence. -/
theorem siblingWalk_props_witness :
    siblingWalk [⟨.min, .key 5⟩, ⟨.key 5, .max⟩] =
      .ok [(⟨.min, .key 5⟩, some 1), (⟨.key 5, .max⟩, none)] :=
  (siblingWalk_props [⟨.min, .key 5⟩, ⟨.key 5, .max⟩]).1 (by decide)

/-! ## LSS blocks, the split path, and Discard (persistor.go, swapper.go)

Block framing from persistor.go: a block starts with a 16-bit type.
`writeLSSBlock` copies the payload after the type and stamps the type;
`discardLSSBlock` overwrites the type with `lssDiscard`. -/

/-- `lssPageData`. -/
def lssPageDataN : Nat := 0

/-- `lssPageUpdate`. -/
def lssPageUpdateN : Nat := 2

/-- `lssDiscard`. -/
def lssDiscardN : Nat := 6

/-- `writeLSSBlock` from persistor.go. -/
def writeLSSBlock (wbuf : List Nat) (typ : Nat) (bs : List Nat) : List Nat :=
  writeAt (writeAt wbuf 2 bs) 0 (beBytes16 typ)

/-- `discardLSSBlock` from persistor.go. -/
def discardLSSBlock (wbuf : List Nat) : List Nat :=
  writeAt wbuf 0 (beBytes16 lssDiscardN)

/-- `getLSSBlockType` from persistor.go. -/
def getLSSBlockType (bs : List Nat) : Nat := readUint16 bs 0

theorem getLSSBlockType_discard (wbuf : List Nat) (h : 2 ≤ wbuf.length) :
    getLSSBlockType (discardLSSBlock wbuf) = lssDiscardN := by
  match wbuf with
  | a :: b :: rest =>
    simp [discardLSSBlock, writeAt, beBytes16, getLSSBlockType, readUint16, lssDiscardN]
  | [] => simp at h
  | [a] => simp at h

/-- `pgFlushLSSType` from persistor.go: `lssPageUpdate` when prior
segments exist, else `lssPageData`. -/
def pgFlushLSSType (numSegments : Nat) : Nat :=
  if numSegments > 0 then lssPageUpdateN else lssPageDataN

/-- The observable LSS/page-table events of the split branch of
`trySMOs2`. -/
inductive SplitEv where
  | reserveSpace
  | writeBlock (i : Nat) (typ : Nat)
  | addFlushRecord (pageIdx : Nat)
  | createMapping
  | updateMapping
  | indexPage
  | freePageId
  | discardBlock (i : Nat)
  | finalizeWrite
  deriving DecidableEq, Repr

/-- Event trace of the split branch of `trySMOs2` (swapper.go lines
1108-1150) with persistence enabled, as a function of the head-CAS
outcome: reserve, write both blocks and flush records, publish the new
mapping, CAS the parent head; on success index the new page and finalise;
on failure free the new page id, overwrite both reserved blocks with
Discard, and finalise. -/
def trySMOsSplitTrace (casOk : Bool) (numSegments : Nat) : List SplitEv :=
  [.reserveSpace, .writeBlock 0 (pgFlushLSSType numSegments), .addFlushRecord 0,
   .writeBlock 1 lssPageDataN, .addFlushRecord 1, .createMapping, .updateMapping] ++
  (if casOk then [.indexPage, .finalizeWrite]
   else [.freePageId, .discardBlock 0, .discardBlock 1, .finalizeWrite])

/-- Net content of the two reserved buffers after the split branch. -/
def splitPathBufs (casOk : Bool) (numSegments : Nat)
    (buf0 buf1 pgBS splitPgBS : List Nat) : List Nat × List Nat :=
  let w0 := writeLSSBlock buf0 (pgFlushLSSType numSegments) pgBS
  let w1 := writeLSSBlock buf1 lssPageDataN splitPgBS
  if casOk then (w0, w1) else (discardLSSBlock w0, discardLSSBlock w1)

/-- The block dispatcher of the recovery visitor (`doRecovery`): a
`Discard` block falls through every case and leaves the reconstructed
state untouched; the remaining block types are handled by `handler`. -/
def recoveryStep {σ : Type} (handler : Nat → σ → List Nat → σ)
    (st : σ) (bs : List Nat) : σ :=
  if getLSSBlockType bs = lssDiscardN then st
  else handler (getLSSBlockType bs) st (bs.drop 2)

theorem writeLSSBlock_length (wbuf : List Nat) (typ : Nat) (bs : List Nat) :
    (writeLSSBlock wbuf typ bs).length = wbuf.length := by
  simp only [writeLSSBlock, writeAt]
  simp only [List.length_append, List.length_take, List.length_drop, beBytes16,
    List.length_cons, List.length_nil]
  omega

/-- C9: in the split path of `trySMOs2` both LSS blocks are written
strictly before the head CAS (`UpdateMapping`); whenever the CAS fails,
every reserved block is overwritten with a Discard marker and the
reservation is finalised after the CAS; and the recovery visitor leaves
the reconstructed state unchanged on a Discard block. -/
theorem split_path_discard (casOk : Bool) (numSegments : Nat)
    (buf0 buf1 pgBS splitPgBS : List Nat)
    (hl0 : 2 ≤ buf0.length) (hl1 : 2 ≤ buf1.length) :
    (∃ pre post, trySMOsSplitTrace casOk numSegments = pre ++ .updateMapping :: post ∧
      .writeBlock 0 (pgFlushLSSType numSegments) ∈ pre ∧
      .writeBlock 1 lssPageDataN ∈ pre ∧
      (∀ i typ, SplitEv.writeBlock i typ ∉ post)) ∧
    (casOk = false →
      getLSSBlockType (splitPathBufs casOk numSegments buf0 buf1 pgBS splitPgBS).1
        = lssDiscardN ∧
      getLSSBlockType (splitPathBufs casOk numSegments buf0 buf1 pgBS splitPgBS).2
        = lssDiscardN ∧
      trySMOsSplitTrace casOk numSegments = (trySMOsSplitTrace casOk numSegments).take 7
        ++ [.freePageId, .discardBlock 0, .discardBlock 1, .finalizeWrite]) ∧
    (∀ (σ : Type) (handler : Nat → σ → List Nat → σ) (st : σ) (bs : List Nat),
      getLSSBlockType bs = lssDiscardN → recoveryStep handler st bs = st) := by
  refine ⟨?_, ?_, ?_⟩
  · refine ⟨[.reserveSpace, .writeBlock 0 (pgFlushLSSType numSegments), .addFlushRecord 0,
      .writeBlock 1 lssPageDataN, .addFlushRecord 1, .createMapping],
      (if casOk then [.indexPage, .finalizeWrite]
       else [.freePageId, .discardBlock 0, .discardBlock 1, .finalizeWrite]), ?_, ?_, ?_, ?_⟩
    · simp [trySMOsSplitTrace]
    · simp
    · simp
    · intro i typ
      cases casOk <;> simp
  · intro hcas
    subst hcas
    refine ⟨?_, ?_, ?_⟩
    · simp only [splitPathBufs, if_neg (by simp : ¬False = true)]
      exact getLSSBlockType_discard _ (by rw [writeLSSBlock_length]; exact hl0)
    · simp only [splitPathBufs, if_neg (by simp : ¬False = true)]
      exact getLSSBlockType_discard _ (by rw [writeLSSBlock_length]; exact hl1)
    · simp [trySMOsSplitTrace]
  · intro σ handler st bs h
    simp [recoveryStep, h]

/-- Witness for `split_path_discard` at concrete buffers with a failed
CAS. -/
theorem split_path_discard_witness :
    getLSSBlockType (splitPathBufs false 0 [9, 9, 9] [9, 9, 9] [1] [2]).1 = lssDiscardN ∧
    getLSSBlockType (splitPathBufs false 0 [9, 9, 9] [9, 9, 9] [1] [2]).2 = lssDiscardN ∧
    trySMOsSplitTrace false 0 = (trySMOsSplitTrace false 0).take 7
      ++ [.freePageId, .discardBlock 0, .discardBlock 1, .finalizeWrite] :=
  ((split_path_discard false 0 [9, 9, 9] [9, 9, 9] [1] [2]
    (by decide) (by decide)).2.1 rfl)

/-! ## Functional page model: record deltas, base pages, lookup, compaction
and split (page.go)

This model carries the parts of a page that the record-level operations
read and write: the delta chain (record and split deltas over a base), the
low and high keys.  Items are key/payload pairs; the configured compare
function orders items by key, so items for the same key with different
payloads compare equal (the store's MVCC items behave this way at page
level).  The compact filter and the `pgOpIterator` behind `collectItems`
are not under src/ and are modelled from the spec (see `collectItems`);
the lookup filter (`nilFilter`, and `rollbackFilter` with no rollback
deltas) accepts every item and is modelled by `lookupFilterAccept`. -/

namespace PgF

/-- A logical item: key and payload. -/
abbrev Item1 := Nat × Nat

/-- The delta chain of a page in this model: record deltas and split
deltas over a base page; `nilC` models the seed page's empty chain
(a bare meta delta). -/
inductive PCh where
  | nilC
  | basePg (items : List Item1)
  | recD (isIns : Bool) (itm : Item1) (next : PCh)
  | splitD (itm : Item1) (pid : Nat) (next : PCh)
  deriving DecidableEq, Repr

/-- A page: chain head, low key, high key (the head delta's `hiItm`). -/
structure Pg where
  head : PCh
  low : IKey
  hi : IKey
  deriving DecidableEq, Repr

/-- `page.Insert`: prepend an insert record delta. -/
def Insert (pg : Pg) (itm : Item1) : Pg :=
  { pg with head := .recD true itm pg.head }

/-- `page.Delete`: prepend a delete record delta. -/
def Delete (pg : Pg) (itm : Item1) : Pg :=
  { pg with head := .recD false itm pg.head }

/-- `sort.Search` from the Go standard library: binary search for the
least index in `[i, j)` satisfying `f`, or `j`. -/
def goSearch (f : Nat → Bool) (i j : Nat) : Nat :=
  if h : i < j then
    let m := (i + j) / 2
    if f m then goSearch f i m else goSearch f (m + 1) j
  else i
termination_by j - i
decreasing_by
  · have hm : (i + j) / 2 < j := by
      rw [Nat.div_lt_iff_lt_mul (by norm_num)]
      omega
    omega
  · have hm : i ≤ (i + j) / 2 := by
      rw [Nat.le_div_iff_mul_le (by norm_num)]
      omega
    omega

/-- Modelled from the spec: the active lookup filter.  With snapshots off
the lookup filter is `nilFilter` (not under src/), which accepts every
item; with snapshots on it is a `rollbackFilter` that only drops items
inside rollback intervals, and the chains of this model carry no rollback
deltas, so it also accepts everything. -/
def lookupFilterAccept (_ : Item1) : Bool := true

/-- The base-page scan loop of `page.Lookup`: starting at `idx`, while
the item equals the key below the high key, return the first item passing
the filter. -/
def baseScan (items : List Item1) (k : Nat) (hi : IKey) (idx : Nat) : Option Item1 :=
  if h : idx < items.length ∧ (items.getD idx (0, 0)).1 = k ∧ ltK (items.getD idx (0, 0)).1 hi then
    if lookupFilterAccept (items.getD idx (0, 0)) then some (items.getD idx (0, 0))
    else baseScan items k hi (idx + 1)
  else none
termination_by items.length - idx
decreasing_by
  omega

/-- The delta walk of `page.Lookup` (page.go lines 792-867): the first
matching insert below the high key returns its item, a matching delete
returns nil, a split delta shrinks the high key, and a base page is
binary-searched. -/
def lookupGo (k : Nat) : PCh → IKey → Option Item1
  | .nilC, _ => none
  | .recD true itm next, hi =>
    if itm.1 = k ∧ ltK itm.1 hi then some itm else lookupGo k next hi
  | .recD false itm next, hi =>
    if itm.1 = k ∧ ltK itm.1 hi then none else lookupGo k next hi
  | .splitD itm _ next, hi =>
    lookupGo k next (if ltK itm.1 hi then .key itm.1 else hi)
  | .basePg items, hi =>
    let idx := goSearch (fun i => k ≤ (items.getD i (0, 0)).1) 0 items.length
    baseScan items k hi idx

/-- `page.Lookup`: walk from the head with the head's high key. -/
def Lookup (pg : Pg) (k : Nat) : Option Item1 :=
  lookupGo k pg.head pg.hi

/-- The record deltas above the base, head first. -/
def chainRecs : PCh → List (Bool × Item1)
  | .recD b itm next => (b, itm) :: chainRecs next
  | .splitD _ _ next => chainRecs next
  | _ => []

/-- The base page's items (empty when the chain has no base). -/
def chainBase : PCh → List Item1
  | .recD _ _ next => chainBase next
  | .splitD _ _ next => chainBase next
  | .basePg items => items
  | .nilC => []

/-- The logical value of a key on a chain: the newest record delta for the
key decides (insert keeps its item, delete removes it); with no delta for
the key, the base page decides. -/
def logicalItem (c : PCh) (k : Nat) : Option Item1 :=
  match (chainRecs c).find? (fun d => d.2.1 = k) with
  | some (true, it) => some it
  | some (false, _) => none
  | none => (chainBase c).find? (fun it => it.1 = k)

/-- Bound check of the collection range `[lo, hi)` (`lo = none` means
unbounded below, as the nil `loItm` of `collectItems`). -/
def inRangeB (lo : Option Nat) (hi : IKey) (k : Nat) : Bool :=
  (match lo with
   | none => true
   | some l => l ≤ k) && ltK k hi

/-- Modelled from the spec: `page.collectItems` drives a `pgOpIterator`
(not under src/) with the compact filter over the range `[loItm, hiItm)`;
per the spec it "drops tombstones [...] and items shadowed by newer
updates at the same key" and emits "a sorted unique list".  Here: the
candidate keys of the chain restricted to the range, deduplicated and
sorted, each mapped to its logical item, keeping inserts only. -/
def collectItems (c : PCh) (lo : Option Nat) (hi : IKey) : List Item1 :=
  let keys := ((chainRecs c).map (fun d => d.2.1) ++ (chainBase c).map (·.1)).dedup
  let keys := keys.filter (inRangeB lo hi)
  let keys := List.insertionSort (· ≤ ·) keys
  keys.filterMap (logicalItem c)

/-- `page.Compact` (page.go lines 949-960): rebuild the chain as a single
base page holding the collected items of the whole range below the high
key (the version bump of the page state is not carried by this model). -/
def Compact (pg : Pg) : Pg :=
  { pg with head := .basePg (collectItems pg.head none pg.hi) }

/-- The walk of `page.Split` to the base page's items. -/
def walkBaseItems : PCh → List Item1
  | .basePg items => items
  | .recD _ _ next => walkBaseItems next
  | .splitD _ _ next => walkBaseItems next
  | .nilC => []

/-- The midpoint-adjustment loop of `page.Split`: decrement `mid` until
`items[mid]` is strictly below the high key and strictly above its
predecessor, or `mid` reaches zero. -/
def midLoop (items : List Item1) (hi : IKey) : Nat → Nat
  | 0 => 0
  | m + 1 =>
    if ltK (items.getD (m + 1) (0, 0)).1 hi ∧
       (items.getD m (0, 0)).1 < (items.getD (m + 1) (0, 0)).1
    then m + 1
    else midLoop items hi m

/-- `page.doSplit` (page.go lines 924-947): collect the upper half
`[itm, hi)`; when nothing survives return nil; otherwise the new page is a
fresh base of the collected items with the first collected item as its low
key, and the parent head becomes a split delta for that item referencing
`pid`, shrinking the parent's high key to it. -/
def doSplit (pg : Pg) (itm : Item1) (pid : Nat) : Option (Pg × Pg) :=
  let itms := collectItems pg.head (some itm.1) pg.hi
  match itms with
  | [] => none
  | first :: rest =>
    let newPg : Pg := { head := .basePg (first :: rest), low := .key first.1, hi := pg.hi }
    let parent : Pg := { head := .splitD first pid pg.head, low := pg.low, hi := .key first.1 }
    some (parent, newPg)

/-- `page.Split` (page.go lines 889-922): walk to the base items, start
from the middle and adjust the midpoint; when a valid midpoint is found,
split there. -/
def Split (pg : Pg) (pid : Nat) : Option (Pg × Pg) :=
  let items := walkBaseItems pg.head
  let mid := if items.length > 0 then midLoop items pg.hi (items.length / 2) else 0
  if mid > 0 then doSplit pg (items.getD mid (0, 0)) pid else none

/-- The claim's notion of a valid midpoint: some item boundary strictly
below the high key and strictly above its predecessor. -/
def validMidpointExists (items : List Item1) (hi : IKey) : Bool :=
  (List.range items.length).any (fun i =>
    0 < i && ltK (items.getD i (0, 0)).1 hi &&
    (items.getD (i - 1) (0, 0)).1 < (items.getD i (0, 0)).1)

theorem logicalItem_key (c : PCh) (k : Nat) (it : Item1)
    (h : logicalItem c k = some it) : it.1 = k := by
  unfold logicalItem at h
  match hf : (chainRecs c).find? (fun d => d.2.1 = k) with
  | some (true, it2) =>
    rw [hf] at h
    have := List.find?_some hf
    simp only [Option.some.injEq] at h
    subst h
    simpa using this
  | some (false, it2) => rw [hf] at h; cases h
  | none =>
    rw [hf] at h
    have := List.find?_some h
    simpa using this

theorem collect_keys_sorted (c : PCh) (lo : Option Nat) (hi : IKey) :
    (collectItems c lo hi).Pairwise (fun a b => a.1 < b.1) := by
  unfold collectItems
  rw [List.pairwise_filterMap]
  have hnd : (List.insertionSort (· ≤ ·)
      ((((chainRecs c).map (fun d => d.2.1) ++ (chainBase c).map (·.1)).dedup).filter
        (inRangeB lo hi))).Nodup := by
    rw [(List.perm_insertionSort _ _).nodup_iff]
    exact (List.nodup_dedup _).filter _
  have hs : (List.insertionSort (· ≤ ·)
      ((((chainRecs c).map (fun d => d.2.1) ++ (chainBase c).map (·.1)).dedup).filter
        (inRangeB lo hi))).Sorted (· < ·) :=
    (List.sorted_insertionSort _ _).lt_of_le hnd
  refine hs.imp ?_
  intro a b hab x hx y hy
  rw [logicalItem_key c a x hx, logicalItem_key c b y hy]
  exact hab

theorem mem_collect_range (c : PCh) (lo : Option Nat) (hi : IKey) (x : Item1)
    (h : x ∈ collectItems c lo hi) : inRangeB lo hi x.1 = true := by
  unfold collectItems at h
  obtain ⟨k, hk, hlog⟩ := List.mem_filterMap.mp h
  rw [(List.perm_insertionSort _ _).mem_iff] at hk
  have := (List.mem_filter.mp hk).2
  rwa [logicalItem_key c k x hlog]

theorem midLoop_spec (items : List Item1) (hi : IKey) (m : Nat) :
    midLoop items hi m = 0 ∨
    (0 < midLoop items hi m ∧ midLoop items hi m ≤ m ∧
      ltK (items.getD (midLoop items hi m) (0, 0)).1 hi = true ∧
      (items.getD (midLoop items hi m - 1) (0, 0)).1 <
        (items.getD (midLoop items hi m) (0, 0)).1) := by
  induction m with
  | zero => exact .inl rfl
  | succ m ih =>
    rw [midLoop]
    by_cases hc : ltK (items.getD (m + 1) (0, 0)).1 hi = true ∧
        (items.getD m (0, 0)).1 < (items.getD (m + 1) (0, 0)).1
    · rw [if_pos hc]
      exact .inr ⟨Nat.succ_pos m, Nat.le_refl _, hc.1, by simpa using hc.2⟩
    · rw [if_neg hc]
      rcases ih with h | h
      · exact .inl h
      · exact .inr ⟨h.1, Nat.le_trans h.2.1 (Nat.le_succ m), h.2.2⟩

/-- C4 counterexample: on a page whose base is `[10, 20]` with high key 30
and a delete delta for 20, a valid midpoint exists (20 is strictly below
the high key and strictly above its predecessor 10), yet `Split` returns
nil because nothing in the upper half survives collection — so returning
null is not "exactly when no valid midpoint exists". -/
theorem split_none_despite_valid_midpoint :
    Split { head := .recD false (20, 0) (.basePg [(10, 0), (20, 0)]),
            low := .min, hi := .key 30 } 7 = none ∧
    validMidpointExists
      (walkBaseItems (.recD false (20, 0) (.basePg [(10, 0), (20, 0)])))
      (.key 30) = true := by
  constructor <;> decide

/-- C4 (amended): a successful `Split(pid)` picks a base item strictly
below the page's high key and strictly above its predecessor; the new page
is a fresh base of the items surviving collection at or above that item,
its low key is the first surviving item (the split boundary itself when it
survives); the parent's head becomes a Split delta for that boundary
referencing `pid`; and every base item of the new page strictly exceeds
every item remaining on the parent page.  `Split` returns nil when no
valid midpoint exists or when no item at or above the midpoint survives
collection. -/
theorem split_correct (pg : Pg) (pid : Nat) (parent newPg : Pg)
    (h : Split pg pid = some (parent, newPg)) :
    ∃ (mitm first : Item1) (rest : List Item1),
      ltK mitm.1 pg.hi = true ∧
      (∃ i, 0 < i ∧ i < (walkBaseItems pg.head).length ∧
        (walkBaseItems pg.head).getD i (0, 0) = mitm ∧
        ((walkBaseItems pg.head).getD (i - 1) (0, 0)).1 < mitm.1) ∧
      collectItems pg.head (some mitm.1) pg.hi = first :: rest ∧
      newPg = { head := .basePg (first :: rest), low := .key first.1, hi := pg.hi } ∧
      parent = { head := .splitD first pid pg.head, low := pg.low, hi := .key first.1 } ∧
      (∀ x ∈ first :: rest, ∀ y ∈ collectItems parent.head none parent.hi, y.1 < x.1) := by
  simp only [Split] at h
  by_cases hlen : (walkBaseItems pg.head).length > 0
  · rw [if_pos hlen] at h
    rcases midLoop_spec (walkBaseItems pg.head) pg.hi ((walkBaseItems pg.head).length / 2)
      with h0 | hspec
    · rw [h0] at h
      simp at h
    · rw [if_pos hspec.1] at h
      unfold doSplit at h
      set mid := midLoop (walkBaseItems pg.head) pg.hi ((walkBaseItems pg.head).length / 2)
        with hmid
      set mitm := (walkBaseItems pg.head).getD mid (0, 0) with hmitm
      match hcol : collectItems pg.head (some mitm.1) pg.hi with
      | [] =>
        rw [hcol] at h
        simp at h
      | first :: rest =>
        rw [hcol] at h
        simp only [Option.some.injEq, Prod.mk.injEq] at h
        refine ⟨mitm, first, rest, hspec.2.2.1, ⟨mid, hspec.1, ?_, rfl, hspec.2.2.2⟩,
          hcol, h.2.symm, h.1.symm, ?_⟩
        · have hd2 : (walkBaseItems pg.head).length / 2 < (walkBaseItems pg.head).length :=
            Nat.div_lt_self hlen (by norm_num)
          have := hspec.2.1
          omega
        · intro x hx y hy
          have hfx : first.1 ≤ x.1 := by
            rcases List.mem_cons.mp hx with rfl | hx2
            · exact Nat.le_refl _
            · have hp := collect_keys_sorted pg.head (some mitm.1) pg.hi
              rw [hcol] at hp
              exact Nat.le_of_lt ((List.pairwise_cons.mp hp).1 x hx2)
          have hy2 := mem_collect_range parent.head none parent.hi y hy
          rw [← h.1] at hy2
          simp [inRangeB, ltK] at hy2
          omega
  · rw [if_neg hlen] at h
    simp at h

/-- Witness for `split_correct` at a concrete page. -/
theorem split_correct_witness :
    ∃ (mitm first : Item1) (rest : List Item1),
      ltK mitm.1 IKey.max = true ∧
      (∃ i, 0 < i ∧ i < (walkBaseItems (PCh.basePg [(10, 0), (20, 0), (30, 0), (40, 0)])).length ∧
        (walkBaseItems (PCh.basePg [(10, 0), (20, 0), (30, 0), (40, 0)])).getD i (0, 0) = mitm ∧
        ((walkBaseItems (PCh.basePg [(10, 0), (20, 0), (30, 0), (40, 0)])).getD (i - 1) (0, 0)).1 < mitm.1) ∧
      collectItems (PCh.basePg [(10, 0), (20, 0), (30, 0), (40, 0)]) (some mitm.1) IKey.max = first :: rest ∧
      ({ head := .basePg [(30, 0), (40, 0)], low := .key 30, hi := .max } : Pg) =
        { head := .basePg (first :: rest), low := .key first.1, hi := IKey.max } ∧
      ({ head := .splitD (30, 0) 7 (.basePg [(10, 0), (20, 0), (30, 0), (40, 0)]), low := .min, hi := .key 30 } : Pg) =
        { head := .splitD first 7 (PCh.basePg [(10, 0), (20, 0), (30, 0), (40, 0)]), low := IKey.min, hi := .key first.1 } ∧
      (∀ x ∈ first :: rest,
        ∀ y ∈ collectItems (PCh.splitD (30, 0) 7 (.basePg [(10, 0), (20, 0), (30, 0), (40, 0)])) none (IKey.key 30),
          y.1 < x.1) :=
  split_correct
    { head := .basePg [(10, 0), (20, 0), (30, 0), (40, 0)], low := .min, hi := .max } 7
    { head := .splitD (30, 0) 7 (.basePg [(10, 0), (20, 0), (30, 0), (40, 0)]), low := .min, hi := .key 30 }
    { head := .basePg [(30, 0), (40, 0)], low := .key 30, hi := .max }
    (by decide)

theorem goSearch_spec (f : Nat → Bool) :
    ∀ (n i j : Nat), j - i ≤ n → i ≤ j →
      (∀ x y, x ≤ y → y < j → f x = true → f y = true) →
      i ≤ goSearch f i j ∧ goSearch f i j ≤ j ∧
      (∀ x, i ≤ x → x < goSearch f i j → f x = false) ∧
      (goSearch f i j < j → f (goSearch f i j) = true) := by
  intro n
  induction n with
  | zero =>
    intro i j hn hij mono
    have hji : i = j := by omega
    subst hji
    rw [goSearch, dif_neg (Nat.lt_irrefl i)]
    exact ⟨Nat.le_refl _, Nat.le_refl _, fun x hx hx2 => absurd hx2 (by omega),
      fun hlt => absurd hlt (by omega)⟩
  | succ n ih =>
    intro i j hn hij mono
    by_cases hlt : i < j
    · have hmlt : (i + j) / 2 < j := by
        rw [Nat.div_lt_iff_lt_mul (by norm_num)]
        omega
      have hmge : i ≤ (i + j) / 2 := by
        rw [Nat.le_div_iff_mul_le (by norm_num)]
        omega
      rw [goSearch]
      rw [dif_pos hlt]
      simp only
      by_cases hf : f ((i + j) / 2) = true
      · rw [if_pos hf]
        have ih2 := ih i ((i + j) / 2) (by omega) hmge
          (fun x y hxy hyj hfx => mono x y hxy (by omega) hfx)
        obtain ⟨ih1, ih2a, ih3, ih4⟩ := ih2
        refine ⟨ih1, by omega, ih3, fun hr => ?_⟩
        by_cases hrm : goSearch f i ((i + j) / 2) < (i + j) / 2
        · exact ih4 hrm
        · have : goSearch f i ((i + j) / 2) = (i + j) / 2 := by omega
          rw [this]
          exact hf
      · rw [if_neg hf]
        have ih2 := ih ((i + j) / 2 + 1) j (by omega) (by omega) mono
        obtain ⟨ih1, ih2a, ih3, ih4⟩ := ih2
        refine ⟨by omega, ih2a, fun x hx hx2 => ?_, ih4⟩
        by_cases hxm : (i + j) / 2 + 1 ≤ x
        · exact ih3 x hxm hx2
        · by_cases hfx : f x = true
          · have := mono x ((i + j) / 2) (by omega) hmlt hfx
            rw [this] at hf
            exact absurd rfl hf
          · simpa using hfx
    · rw [goSearch]
      rw [dif_neg hlt]
      exact ⟨Nat.le_refl _, hij, fun x hx hx2 => absurd hx2 (by omega),
        fun h2 => absurd h2 (by omega)⟩

theorem find?_first_index (p : Item1 → Bool) (items : List Item1) (t : Nat)
    (ht : t < items.length) (hp : p (items.getD t (0, 0)) = true)
    (hbefore : ∀ x, x < t → p (items.getD x (0, 0)) = false) :
    items.find? p = some (items.getD t (0, 0)) := by
  induction items generalizing t with
  | nil => simp at ht
  | cons a l ih =>
    cases t with
    | zero =>
      rw [List.getD_cons_zero] at hp ⊢
      rw [List.find?_cons_of_pos _ hp]
    | succ t =>
      have ha : p a = false := by
        have := hbefore 0 (Nat.succ_pos t)
        rwa [List.getD_cons_zero] at this
      rw [List.getD_cons_succ]
      rw [List.find?_cons_of_neg _ (by simp [ha])]
      refine ih t (by simpa using ht) (by rwa [List.getD_cons_succ] at hp) ?_
      intro x hx
      have := hbefore (x + 1) (by omega)
      rwa [List.getD_cons_succ] at this

theorem pairwise_getD_lt (items : List Item1)
    (hsort : items.Pairwise (fun a b => a.1 < b.1))
    (x y : Nat) (hx : x < y) (hy : y < items.length) :
    (items.getD x (0, 0)).1 < (items.getD y (0, 0)).1 := by
  rw [List.getD_eq_getElem items (0, 0) (by omega), List.getD_eq_getElem items (0, 0) hy]
  exact List.pairwise_iff_getElem.mp hsort x y (by omega) hy hx

theorem lookupBase_eq_find (items : List Item1) (k : Nat) (hi : IKey)
    (hsort : items.Pairwise (fun a b => a.1 < b.1))
    (hhi : ∀ it ∈ items, ltK it.1 hi = true) :
    lookupGo k (.basePg items) hi = items.find? (fun it => it.1 = k) := by
  have mono : ∀ x y, x ≤ y → y < items.length →
      (decide (k ≤ (items.getD x (0, 0)).1)) = true →
      (decide (k ≤ (items.getD y (0, 0)).1)) = true := by
    intro x y hxy hyl hx
    simp only [decide_eq_true_eq] at hx ⊢
    rcases Nat.lt_or_ge x y with h | h
    · exact Nat.le_of_lt (Nat.lt_of_le_of_lt hx (pairwise_getD_lt items hsort x y h hyl))
    · have hxe : x = y := by omega
      subst hxe
      exact hx
  obtain ⟨hs1, hs2, hs3, hs4⟩ := goSearch_spec (fun i => decide (k ≤ (items.getD i (0, 0)).1))
    items.length 0 items.length (by omega) (by omega) mono
  show baseScan items k hi (goSearch _ 0 items.length) = _
  set r := goSearch (fun i => decide (k ≤ (items.getD i (0, 0)).1)) 0 items.length with hr
  by_cases hrn : r < items.length
  · by_cases hk : (items.getD r (0, 0)).1 = k
    · have hmem : ltK (items.getD r (0, 0)).1 hi = true := by
        refine hhi (items.getD r (0, 0)) ?_
        rw [List.getD_eq_getElem items (0, 0) hrn]
        exact List.getElem_mem _
      rw [baseScan, dif_pos ⟨hrn, hk, hmem⟩]
      show some (items.getD r (0, 0)) = _
      refine (find?_first_index _ items r hrn (by simpa using hk) ?_).symm
      intro x hx
      have hlt := hs3 x (by omega) hx
      simp only [decide_eq_false_iff_not, Nat.not_le] at hlt
      simp only [decide_eq_false_iff_not]
      omega
    · have hnone : items.find? (fun it => it.1 = k) = none := by
        rw [List.find?_eq_none]
        intro it hit
        simp only [decide_eq_true_eq]
        obtain ⟨idx, hidx, hidx2⟩ := List.mem_iff_getElem.mp hit
        have hit2 : items.getD idx (0, 0) = it := by
          rw [List.getD_eq_getElem items (0, 0) hidx]
          exact hidx2
        intro hkey
        rcases Nat.lt_trichotomy idx r with h | h | h
        · have := hs3 idx (by omega) h
          simp only [decide_eq_false_iff_not, Nat.not_le] at this
          rw [hit2] at this
          omega
        · subst h
          rw [hit2] at hk
          rw [hkey] at hk
          exact hk rfl
        · have hfr := hs4 hrn
          simp only [decide_eq_true_eq] at hfr
          have hpl := pairwise_getD_lt items hsort r idx h hidx
          rw [hit2] at hpl
          omega
      rw [hnone, baseScan]
      rw [dif_neg]
      intro hcon
      exact hk hcon.2.1
  · have hnone : items.find? (fun it => it.1 = k) = none := by
      rw [List.find?_eq_none]
      intro it hit
      simp only [decide_eq_true_eq]
      obtain ⟨idx, hidx, hidx2⟩ := List.mem_iff_getElem.mp hit
      have hit2 : items.getD idx (0, 0) = it := by
        rw [List.getD_eq_getElem items (0, 0) hidx]
        exact hidx2
      intro hkey
      have := hs3 idx (by omega) (by omega)
      simp only [decide_eq_false_iff_not, Nat.not_le] at this
      rw [hit2] at this
      omega
    rw [hnone, baseScan]
    rw [dif_neg]
    intro hcon
    omega

/-- Invariant of the chains reachable by record operations and compaction
on a single page: record deltas over a base (or the empty seed chain)
whose items are strictly sorted by key and below the high key. -/
def goodChain (hi : IKey) : PCh → Prop
  | .recD _ _ next => goodChain hi next
  | .basePg items =>
    items.Pairwise (fun a b => a.1 < b.1) ∧ ∀ it ∈ items, ltK it.1 hi = true
  | .nilC => True
  | .splitD _ _ _ => False

theorem logicalItem_recD (b : Bool) (itm : Item1) (c : PCh) (k : Nat) :
    logicalItem (.recD b itm c) k =
      if itm.1 = k then (if b then some itm else none) else logicalItem c k := by
  by_cases h : itm.1 = k
  · simp only [logicalItem, chainRecs, chainBase, if_pos h]
    rw [List.find?_cons_of_pos _ (by simpa using h)]
    cases b <;> rfl
  · simp only [logicalItem, chainRecs, chainBase, if_neg h]
    rw [List.find?_cons_of_neg _ (by simpa using h)]

theorem logicalItem_basePg (items : List Item1) (k : Nat) :
    logicalItem (.basePg items) k = items.find? (fun it => it.1 = k) := by
  simp [logicalItem, chainRecs, chainBase]

theorem lookup_eq_logical (hi : IKey) (c : PCh) (hg : goodChain hi c)
    (k : Nat) (hk : ltK k hi = true) :
    lookupGo k c hi = logicalItem c k := by
  induction c with
  | nilC => rfl
  | basePg items =>
    obtain ⟨hsort, hhi⟩ := hg
    rw [lookupBase_eq_find items k hi hsort hhi, logicalItem_basePg]
  | recD b itm next ih =>
    have hg2 : goodChain hi next := hg
    rw [logicalItem_recD]
    by_cases h : itm.1 = k
    · cases b
      · show (if itm.1 = k ∧ ltK itm.1 hi then none else lookupGo k next hi) = _
        rw [if_pos ⟨h, by rw [h]; exact hk⟩, if_pos h]
        rfl
      · show (if itm.1 = k ∧ ltK itm.1 hi then some itm else lookupGo k next hi) = _
        rw [if_pos ⟨h, by rw [h]; exact hk⟩, if_pos h]
        rfl
    · cases b
      · show (if itm.1 = k ∧ ltK itm.1 hi then none else lookupGo k next hi) = _
        rw [if_neg (fun hc => h hc.1), if_neg h]
        exact ih hg2
      · show (if itm.1 = k ∧ ltK itm.1 hi then some itm else lookupGo k next hi) = _
        rw [if_neg (fun hc => h hc.1), if_neg h]
        exact ih hg2
  | splitD itm pid next ih => exact absurd hg (by simp [goodChain])

/-- The candidate keys of a chain: keys of its record deltas and of its
base items. -/
def keysOf (c : PCh) : List Nat :=
  (chainRecs c).map (fun d => d.2.1) ++ (chainBase c).map (·.1)

theorem logicalItem_mem_keys (c : PCh) (k : Nat) (it : Item1)
    (h : logicalItem c k = some it) : k ∈ keysOf c := by
  unfold logicalItem at h
  match hf : (chainRecs c).find? (fun d => d.2.1 = k) with
  | some (true, it2) =>
    have hmem := List.mem_of_find?_eq_some hf
    have hkey := List.find?_some hf
    simp only [decide_eq_true_eq] at hkey
    exact List.mem_append_left _ (List.mem_map.mpr ⟨(true, it2), hmem, hkey⟩)
  | some (false, it2) =>
    rw [hf] at h
    cases h
  | none =>
    rw [hf] at h
    have hmem := List.mem_of_find?_eq_some h
    have hkey := List.find?_some h
    simp only [decide_eq_true_eq] at hkey
    exact List.mem_append_right _ (List.mem_map.mpr ⟨it, hmem, hkey⟩)

theorem find?_filterMap_logical (c : PCh) (keys : List Nat) (hnd : keys.Nodup) (k : Nat) :
    (keys.filterMap (logicalItem c)).find? (fun it => it.1 = k) =
      if k ∈ keys then logicalItem c k else none := by
  induction keys with
  | nil => simp
  | cons k0 ks ih =>
    have hnd2 : ks.Nodup := (List.nodup_cons.mp hnd).2
    have hk0 : k0 ∉ ks := (List.nodup_cons.mp hnd).1
    match hlog : logicalItem c k0 with
    | none =>
      rw [List.filterMap_cons_none hlog, ih hnd2]
      by_cases hmem : k ∈ k0 :: ks
      · rcases List.mem_cons.mp hmem with rfl | hks
        · rw [if_pos hmem, if_neg hk0, hlog]
        · rw [if_pos hmem, if_pos hks]
      · rw [if_neg hmem, if_neg (fun hc => hmem (List.mem_cons_of_mem _ hc))]
    | some it0 =>
      have hkey0 : it0.1 = k0 := logicalItem_key c k0 it0 hlog
      rw [List.filterMap_cons_some hlog]
      by_cases hkk : k0 = k
      · subst hkk
        rw [List.find?_cons_of_pos _ (by simpa using hkey0)]
        rw [if_pos (List.mem_cons_self _ _), hlog]
      · rw [List.find?_cons_of_neg _ (by simp [hkey0, hkk]), ih hnd2]
        by_cases hks : k ∈ ks
        · rw [if_pos hks, if_pos (List.mem_cons_of_mem _ hks)]
        · rw [if_neg hks,
            if_neg (by simp only [List.mem_cons, not_or]; exact ⟨fun hc => hkk hc.symm, hks⟩)]

theorem find_collect (c : PCh) (hi : IKey) (k : Nat) (hk : ltK k hi = true) :
    (collectItems c none hi).find? (fun it => it.1 = k) = logicalItem c k := by
  unfold collectItems
  have hnd : (List.insertionSort (· ≤ ·)
      (((chainRecs c).map (fun d => d.2.1) ++ (chainBase c).map (·.1)).dedup.filter
        (inRangeB none hi))).Nodup := by
    rw [(List.perm_insertionSort _ _).nodup_iff]
    exact (List.nodup_dedup _).filter _
  rw [find?_filterMap_logical c _ hnd k]
  by_cases hmem : k ∈ List.insertionSort (· ≤ ·)
      (((chainRecs c).map (fun d => d.2.1) ++ (chainBase c).map (·.1)).dedup.filter
        (inRangeB none hi))
  · rw [if_pos hmem]
  · rw [if_neg hmem]
    match hlog : logicalItem c k with
    | none => rfl
    | some it =>
      exfalso
      apply hmem
      rw [(List.perm_insertionSort _ _).mem_iff]
      refine List.mem_filter.mpr ⟨List.mem_dedup.mpr ?_, by simp [inRangeB, hk]⟩
      exact logicalItem_mem_keys c k it hlog

/-- A page-history operation: insert or delete of an item, or a
compaction. -/
inductive HOp where
  | ins (itm : Item1)
  | del (itm : Item1)
  | compact
  deriving DecidableEq, Repr

/-- Apply one history operation to a page. -/
def applyOp (pg : Pg) : HOp → Pg
  | .ins itm => Insert pg itm
  | .del itm => Delete pg itm
  | .compact => Compact pg

/-- Apply a history (most recent operation first) to a page. -/
def runOps (pg : Pg) : List HOp → Pg
  | [] => pg
  | op :: rest => applyOp (runOps pg rest) op

/-- The initial page of a key range: an empty chain below `hi`. -/
def initPg (hi : IKey) : Pg := { head := .nilC, low := .min, hi := hi }

/-- The claim's reference semantics: the most recent write for the key
(most recent operation first) decides — an insert yields its item, a
delete or an unwritten key yields nothing; compaction does not change the
logical content. -/
def histNewest : List HOp → Nat → Option Item1
  | [], _ => none
  | .ins itm :: rest, k => if itm.1 = k then some itm else histNewest rest k
  | .del itm :: rest, k => if itm.1 = k then none else histNewest rest k
  | .compact :: rest, k => histNewest rest k

theorem runOps_hi (hi : IKey) (h : List HOp) : (runOps (initPg hi) h).hi = hi := by
  induction h with
  | nil => rfl
  | cons op rest ih => cases op <;> simpa [runOps, applyOp, Insert, Delete, Compact]

theorem runOps_good (hi : IKey) (h : List HOp) :
    goodChain hi (runOps (initPg hi) h).head := by
  induction h with
  | nil => trivial
  | cons op rest ih =>
    cases op with
    | ins itm => exact ih
    | del itm => exact ih
    | compact =>
      show goodChain hi (.basePg (collectItems (runOps (initPg hi) rest).head none
        (runOps (initPg hi) rest).hi))
      rw [runOps_hi]
      refine ⟨collect_keys_sorted _ _ _, fun it hit => ?_⟩
      have := mem_collect_range _ _ _ it hit
      simpa [inRangeB] using this

theorem logical_hist (hi : IKey) (h : List HOp) (k : Nat) (hk : ltK k hi = true) :
    logicalItem (runOps (initPg hi) h).head k = histNewest h k := by
  induction h with
  | nil => rfl
  | cons op rest ih =>
    cases op with
    | ins itm =>
      show logicalItem (.recD true itm (runOps (initPg hi) rest).head) k = _
      rw [logicalItem_recD]
      by_cases hkey : itm.1 = k
      · simp [histNewest, hkey]
      · simp [histNewest, hkey, ih]
    | del itm =>
      show logicalItem (.recD false itm (runOps (initPg hi) rest).head) k = _
      rw [logicalItem_recD]
      by_cases hkey : itm.1 = k
      · simp [histNewest, hkey]
      · simp [histNewest, hkey, ih]
    | compact =>
      show logicalItem (.basePg (collectItems (runOps (initPg hi) rest).head none
        (runOps (initPg hi) rest).hi)) k = _
      rw [runOps_hi, logicalItem_basePg, find_collect _ hi k hk, ih]
      rfl

/-- C1: for every key in the page's range, after any history of inserts
and deletes interleaved with compactions, `Lookup` returns the item of the
most recent insert for the key, and nothing when the most recent write is
a delete or the key was never written (`histNewest` is exactly that
reference semantics). -/
theorem lookup_history (hi : IKey) (h : List HOp) (k : Nat) (hk : ltK k hi = true) :
    Lookup (runOps (initPg hi) h) k = histNewest h k := by
  unfold Lookup
  rw [runOps_hi hi h]
  rw [lookup_eq_logical hi _ (runOps_good hi h) k hk]
  exact logical_hist hi h k hk

/-- Witness for `lookup_history` at a concrete history. -/
theorem lookup_history_witness :
    Lookup (runOps (initPg .max) [.ins (3, 20), .compact, .del (3, 0), .ins (3, 10)]) 3 =
      some (3, 20) := by
  rw [lookup_history .max [.ins (3, 20), .compact, .del (3, 0), .ins (3, 10)] 3 (by decide)]
  rfl

end PgF

/-! ## Marshal / unmarshal of a page block (page.go lines 1071-1367)

`page.marshal` walks the chain head-to-tail and encodes it as a header
followed by `[16-bit op, payload]` entries; `unmarshalDelta` parses them
back.  The byte buffer is modelled at the granularity of the individual
encoder writes: each `PutUint16`/`PutUint64`/`marshalIndexKey`/
`marshalItem` call emits one token (items are opaque and self-delimiting
via the configured item-size function, sentinels are tagged by
`marshalIndexKey`). -/

/-- One encoder write. -/
inductive Tok where
  | u16 (v : Nat)
  | u64 (v : Nat)
  | ikey (k : IKey)
  | itm (n : Nat)
  deriving DecidableEq, Repr

/-- The wire number of a record-delta op (`opInsertDelta = 3`,
`opDeleteDelta = 4`). -/
def opNum (isIns : Bool) : Nat := if isIns then 3 else 4

/-- The body loop of `page.marshal`, returning the emitted tokens and the
`numSegments` result.  Parameters mirror the Go locals: `ms` is
`maxSegments`, `hi` the shrinking high key, `child` the merge-sibling
mode, `full` the `isFullMarshal` flag.  A record below `hi` emits
`[op][item]`; a split delta shrinks `hi` and emits `[op]`; a merge delta
inlines the sibling chain in child mode with `maxSegments = 0`; a base
page emits its in-range items as insert deltas in child mode and as
`[op][16-bit count][items]` otherwise; flush/reloc/swapout deltas force a
full marshal when their segment count exceeds `ms` and otherwise
terminate the block with `[opFlushPageDelta][64-bit offset]`; rollback
deltas emit `[op][start][end]`; remove and meta deltas emit nothing. -/
def marshalBody (ms : Nat) : Chain → IKey → Bool → Bool → List Tok × Nat
  | .nilC, _, _, _ => ([], 0)
  | .recD _ isIns itm next, hi, child, full =>
    let ts := if ltK itm hi then [Tok.u16 (opNum isIns), Tok.itm itm] else []
    let r := marshalBody ms next hi child full
    (ts ++ r.1, r.2)
  | .split _ itm next, hi, child, full =>
    let hi2 := if ltK itm hi then IKey.key itm else hi
    let r := marshalBody ms next hi2 child full
    (Tok.u16 5 :: r.1, r.2)
  | .merge _ _ sibling next, hi, child, full =>
    let rs := marshalBody 0 sibling hi true true
    let r := marshalBody ms next hi child full
    (rs.1 ++ r.1, r.2)
  | .basePg _ items, hi, child, _ =>
    if child then
      ((items.filter (fun i => ltK i hi)).flatMap (fun i => [Tok.u16 3, Tok.itm i]), 0)
    else
      (Tok.u16 1 :: Tok.u16 ((items.filter (fun i => ltK i hi)).length % 2 ^ 16) ::
        (items.filter (fun i => ltK i hi)).map Tok.itm, 0)
  | .flushD _ offset _ numSegs _ next, hi, child, full =>
    if numSegs > ms then marshalBody ms next hi child true
    else if full = false then ([Tok.u16 8, Tok.u64 offset], numSegs)
    else marshalBody ms next hi child full
  | .rollback _ s e next, hi, child, full =>
    let r := marshalBody ms next hi child full
    (Tok.u16 10 :: Tok.u64 s :: Tok.u64 e :: r.1, r.2)
  | .removeD _ next, hi, child, full => marshalBody ms next hi child full
  | .metaD _ next, hi, child, full => marshalBody ms next hi child full
  | .swapout _ offset numSegs, _, _, full =>
    if numSegs > 0 then
      if full = false then ([Tok.u16 8, Tok.u64 offset], numSegs) else ([], 0)
    else if full = false then ([Tok.u16 8, Tok.u64 offset], numSegs)
    else ([], 0)

/-- `page.Marshal` (with `maxSegments = ms`): the header
`[16-bit state][low key][16-bit chainLen][16-bit numItems][high key]`
followed by the body; the state written is the incremented version when
no prev-offset terminator was emitted.  A nil head marshals to nothing. -/
def MarshalToks (pg : PageR) (ms : Nat) : List Tok :=
  match headerOf pg.head with
  | none => []
  | some hH =>
    let body := marshalBody ms pg.head hH.hiItm false (decide (ms = 0))
    let stOut := if body.2 = 0 then stIncrVersion hH.state else hH.state
    [Tok.u16 (stOut % 2 ^ 16), Tok.ikey pg.low, Tok.u16 (hH.chainLen % 2 ^ 16),
     Tok.u16 (hH.numItems % 2 ^ 16), Tok.ikey hH.hiItm] ++ body.1

/-- A delta reconstructed by `unmarshalDelta`. -/
inductive UD where
  | recU (isIns : Bool) (itm : Nat)
  | splitU
  | baseU (items : List Nat)
  | rollU (s e : Nat)
  deriving DecidableEq, Repr

/-- Read `n` consecutive item tokens (the base-page item loop of
`unmarshalDelta`). -/
def takeItems : Nat → List Tok → Option (List Nat × List Tok)
  | 0, ts => some ([], ts)
  | n + 1, Tok.itm i :: ts =>
    match takeItems n ts with
    | some (l, r) => some (i :: l, r)
    | none => none
  | _ + 1, _ => none

theorem takeItems_length (n : Nat) (ts : List Tok) (l : List Nat) (r : List Tok)
    (h : takeItems n ts = some (l, r)) : r.length ≤ ts.length := by
  induction n generalizing ts l r with
  | zero =>
    simp only [takeItems, Option.some.injEq, Prod.mk.injEq] at h
    rw [← h.2]
  | succ n ih =>
    match ts with
    | [] => cases h
    | Tok.u16 v :: ts2 => cases h
    | Tok.u64 v :: ts2 => cases h
    | Tok.ikey k :: ts2 => cases h
    | Tok.itm i :: ts2 =>
      simp only [takeItems] at h
      match h2 : takeItems n ts2 with
      | none => rw [h2] at h; cases h
      | some (l2, r2) =>
        rw [h2] at h
        simp only [Option.some.injEq, Prod.mk.injEq] at h
        have := ih ts2 l2 r2 h2
        rw [← h.2]
        simp only [List.length_cons]
        omega

/-- The delta-parsing loop of `unmarshalDelta` (page.go lines 1306-1363):
reads `[16-bit op]` entries until the buffer ends or a flush/reloc entry
terminates the block with the previous LSS offset.  The loop consumes at
least one token per iteration, so running it with fuel equal to the
buffer length is exact; `parseDs` below instantiates the fuel that way
and `parseDsF_fuel` shows any larger fuel gives the same result. -/
def parseDsF : Nat → List Tok → Option (List UD × Bool × Nat)
  | _, [] => some ([], false, 0)
  | 0, _ :: _ => none
  | fuel + 1, Tok.u16 op :: ts =>
    if op = 3 ∨ op = 4 then
      match ts with
      | Tok.itm i :: ts2 =>
        match parseDsF fuel ts2 with
        | some (l, hc, off) => some (UD.recU (decide (op = 3)) i :: l, hc, off)
        | none => none
      | _ => none
    else if op = 5 then
      match parseDsF fuel ts with
      | some (l, hc, off) => some (UD.splitU :: l, hc, off)
      | none => none
    else if op = 1 then
      match ts with
      | Tok.u16 n :: ts2 =>
        match takeItems n ts2 with
        | some (items, ts3) =>
          match parseDsF fuel ts3 with
          | some (l, hc, off) => some (UD.baseU items :: l, hc, off)
          | none => none
        | none => none
      | _ => none
    else if op = 8 ∨ op = 9 then
      match ts with
      | Tok.u64 off :: _ => some ([], true, off)
      | _ => none
    else if op = 10 then
      match ts with
      | Tok.u64 s :: Tok.u64 e :: ts2 =>
        match parseDsF fuel ts2 with
        | some (l, hc, off) => some (UD.rollU s e :: l, hc, off)
        | none => none
      | _ => none
    else none
  | _ + 1, _ :: _ => none

theorem parseDsF_fuel (f : Nat) :
    ∀ (g : Nat) (ts : List Tok), ts.length ≤ f → ts.length ≤ g →
      parseDsF f ts = parseDsF g ts := by
  induction f with
  | zero =>
    intro g ts hf hg
    match ts with
    | [] =>
      match g with
      | 0 => rfl
      | g + 1 => rfl
  | succ f ih =>
    intro g ts hf hg
    match ts with
    | [] =>
      match g with
      | 0 => rfl
      | g + 1 => rfl
    | t :: ts =>
      match g with
      | 0 => exact absurd hg (by simp)
      | g + 1 =>
        match t with
        | Tok.u64 v => rfl
        | Tok.ikey k => rfl
        | Tok.itm i => rfl
        | Tok.u16 op =>
          simp only [parseDsF]
          simp only [List.length_cons] at hf hg
          by_cases h34 : op = 3 ∨ op = 4
          · rw [if_pos h34, if_pos h34]
            match ts with
            | [] => rfl
            | Tok.u16 v :: ts2 => rfl
            | Tok.u64 v :: ts2 => rfl
            | Tok.ikey k :: ts2 => rfl
            | Tok.itm i :: ts2 =>
              simp only [List.length_cons] at hf hg
              dsimp only
              rw [ih g ts2 (by omega) (by omega)]
          · rw [if_neg h34, if_neg h34]
            by_cases h5 : op = 5
            · rw [if_pos h5, if_pos h5, ih g ts (by omega) (by omega)]
            · rw [if_neg h5, if_neg h5]
              by_cases h1 : op = 1
              · rw [if_pos h1, if_pos h1]
                match ts with
                | [] => rfl
                | Tok.u64 v :: ts2 => rfl
                | Tok.ikey k :: ts2 => rfl
                | Tok.itm i :: ts2 => rfl
                | Tok.u16 n :: ts2 =>
                  simp only [List.length_cons] at hf hg
                  dsimp only
                  match htake : takeItems n ts2 with
                  | none => rfl
                  | some (items, ts3) =>
                    have := takeItems_length n ts2 items ts3 htake
                    dsimp only
                    rw [ih g ts3 (by omega) (by omega)]
              · rw [if_neg h1, if_neg h1]
                by_cases h89 : op = 8 ∨ op = 9
                · rw [if_pos h89, if_pos h89]
                · rw [if_neg h89, if_neg h89]
                  by_cases h10 : op = 10
                  · rw [if_pos h10, if_pos h10]
                    match ts with
                    | [] => rfl
                    | Tok.u16 v :: ts2 => rfl
                    | Tok.ikey k :: ts2 => rfl
                    | Tok.itm i :: ts2 => rfl
                    | Tok.u64 s :: [] => rfl
                    | Tok.u64 s :: Tok.u16 v :: ts2 => rfl
                    | Tok.u64 s :: Tok.ikey k :: ts2 => rfl
                    | Tok.u64 s :: Tok.itm i :: ts2 => rfl
                    | Tok.u64 s :: Tok.u64 e :: ts2 =>
                      simp only [List.length_cons] at hf hg
                      dsimp only
                      rw [ih g ts2 (by omega) (by omega)]
                  · rw [if_neg h10, if_neg h10]

/-- The parsing loop run on a whole token buffer. -/
def parseDs (ts : List Tok) : Option (List UD × Bool × Nat) := parseDsF ts.length ts

/-- The page reconstructed by `unmarshalDelta`: the header fields carried
by the meta head delta, the parsed delta list (linked head-to-tail below
the meta delta in the source), and the prev-offset report. -/
structure UPage where
  low : IKey
  state : Nat
  chainLen : Nat
  numItems : Nat
  hiItm : IKey
  ds : List UD
  hasChain : Bool
  offset : Nat
  deriving DecidableEq, Repr

/-- `page.unmarshalDelta` (page.go lines 1278-1367): read the header
(state is marked flushed), then parse the delta entries. -/
def unmarshalDelta (toks : List Tok) : Option UPage :=
  match toks with
  | Tok.u16 st :: Tok.ikey lo :: Tok.u16 cl :: Tok.u16 ni :: Tok.ikey hi :: body =>
    match parseDs body with
    | some (l, hc, off) => some ⟨lo, stSetFlushed st, cl, ni, hi, l, hc, off⟩
    | none => none
  | _ => none

/-- The chain contains no flush, reloc or swapout delta (also inside
merged sibling chains). -/
def noFRS : Chain → Prop
  | .nilC => True
  | .recD _ _ _ next => noFRS next
  | .split _ _ next => noFRS next
  | .merge _ _ sibling next => noFRS sibling ∧ noFRS next
  | .basePg _ _ => True
  | .flushD _ _ _ _ _ _ => False
  | .rollback _ _ _ next => noFRS next
  | .removeD _ next => noFRS next
  | .metaD _ next => noFRS next
  | .swapout _ _ _ => False

/-- Every base page of the chain holds fewer than `2^16` items (the item
count is encoded as a `uint16`). -/
def smallBases : Chain → Prop
  | .nilC => True
  | .recD _ _ _ next => smallBases next
  | .split _ _ next => smallBases next
  | .merge _ _ sibling next => smallBases sibling ∧ smallBases next
  | .basePg _ items => items.length < 2 ^ 16
  | .flushD _ _ _ _ _ next => smallBases next
  | .rollback _ _ _ next => smallBases next
  | .removeD _ next => smallBases next
  | .metaD _ next => smallBases next
  | .swapout _ _ _ => True

/-- The logical record deltas of a chain in head-to-tail order: records
below the current high key; split deltas shrink the high key; merged
sibling chains are inlined (in child position a base page's in-range
items count as insert records). -/
def logicalRecs (child : Bool) : IKey → Chain → List (Bool × Nat)
  | _, .nilC => []
  | hi, .recD _ isIns itm next =>
    (if ltK itm hi then [(isIns, itm)] else []) ++ logicalRecs child hi next
  | hi, .split _ itm next =>
    logicalRecs child (if ltK itm hi then IKey.key itm else hi) next
  | hi, .merge _ _ sibling next =>
    logicalRecs true hi sibling ++ logicalRecs child hi next
  | hi, .basePg _ items =>
    if child then (items.filter (fun i => ltK i hi)).map (fun i => (true, i)) else []
  | _, .flushD _ _ _ _ _ _ => []
  | hi, .rollback _ _ _ next => logicalRecs child hi next
  | hi, .removeD _ next => logicalRecs child hi next
  | hi, .metaD _ next => logicalRecs child hi next
  | _, .swapout _ _ _ => []

/-- The logical base items of a chain: the in-range items of the
top-level base page (merged siblings contribute records, not the base). -/
def logicalBase : IKey → Chain → Option (List Nat)
  | _, .nilC => none
  | hi, .recD _ _ _ next => logicalBase hi next
  | hi, .split _ itm next =>
    logicalBase (if ltK itm hi then IKey.key itm else hi) next
  | hi, .merge _ _ _ next => logicalBase hi next
  | hi, .basePg _ items => some (items.filter (fun i => ltK i hi))
  | _, .flushD _ _ _ _ _ _ => none
  | hi, .rollback _ _ _ next => logicalBase hi next
  | hi, .removeD _ next => logicalBase hi next
  | hi, .metaD _ next => logicalBase hi next
  | _, .swapout _ _ _ => none

/-- Record deltas of a reconstructed delta list, head-to-tail. -/
def recsOfUD : List UD → List (Bool × Nat)
  | [] => []
  | UD.recU b i :: l => (b, i) :: recsOfUD l
  | _ :: l => recsOfUD l

/-- The base items of a reconstructed delta list (the first base entry). -/
def baseOfUD : List UD → Option (List Nat)
  | [] => none
  | UD.baseU items :: _ => some items
  | _ :: l => baseOfUD l

/-- The delta list `unmarshalDelta` reconstructs from the body tokens of a
chain (in head-to-tail order). -/
def bodyUDs (child : Bool) : IKey → Chain → List UD
  | _, .nilC => []
  | hi, .recD _ isIns itm next =>
    (if ltK itm hi then [UD.recU isIns itm] else []) ++ bodyUDs child hi next
  | hi, .split _ itm next =>
    UD.splitU :: bodyUDs child (if ltK itm hi then IKey.key itm else hi) next
  | hi, .merge _ _ sibling next =>
    bodyUDs true hi sibling ++ bodyUDs child hi next
  | hi, .basePg _ items =>
    if child then (items.filter (fun i => ltK i hi)).map (fun i => UD.recU true i)
    else [UD.baseU (items.filter (fun i => ltK i hi))]
  | _, .flushD _ _ _ _ _ _ => []
  | hi, .rollback _ s e next => UD.rollU s e :: bodyUDs child hi next
  | hi, .removeD _ next => bodyUDs child hi next
  | hi, .metaD _ next => bodyUDs child hi next
  | _, .swapout _ _ _ => []

/-- Prepend reconstructed deltas to a parse result. -/
def prependUD (u : List UD) : Option (List UD × Bool × Nat) → Option (List UD × Bool × Nat)
  | some (l, hc, off) => some (u ++ l, hc, off)
  | none => none

theorem prependUD_nil (r : Option (List UD × Bool × Nat)) : prependUD [] r = r := by
  match r with
  | none => rfl
  | some (l, hc, off) => simp [prependUD]

theorem prependUD_append (a b : List UD) (r : Option (List UD × Bool × Nat)) :
    prependUD (a ++ b) r = prependUD a (prependUD b r) := by
  match r with
  | none => rfl
  | some (l, hc, off) => simp [prependUD]

theorem parseDs_nil : parseDs [] = some ([], false, 0) := rfl

theorem parseDs_rec (isIns : Bool) (i : Nat) (ts : List Tok) :
    parseDs (Tok.u16 (opNum isIns) :: Tok.itm i :: ts) =
      prependUD [UD.recU isIns i] (parseDs ts) := by
  have hstep : parseDs (Tok.u16 (opNum isIns) :: Tok.itm i :: ts) =
      match parseDsF (ts.length + 1) ts with
      | some (l, hc, off) => some (UD.recU isIns i :: l, hc, off)
      | none => none := by
    cases isIns <;> simp [parseDs, parseDsF, opNum]
  rw [hstep, parseDsF_fuel (ts.length + 1) ts.length ts (by omega) le_rfl]
  rw [show parseDsF ts.length ts = parseDs ts from rfl]
  match hr : parseDs ts with
  | some (l, hc, off) => rfl
  | none => rfl

theorem parseDs_split (ts : List Tok) :
    parseDs (Tok.u16 5 :: ts) = prependUD [UD.splitU] (parseDs ts) := by
  have hstep : parseDs (Tok.u16 5 :: ts) =
      match parseDsF ts.length ts with
      | some (l, hc, off) => some (UD.splitU :: l, hc, off)
      | none => none := by
    simp only [parseDs, List.length_cons, parseDsF]
    rw [if_neg (by decide), if_pos trivial]
  rw [hstep, show parseDsF ts.length ts = parseDs ts from rfl]
  match hr : parseDs ts with
  | some (l, hc, off) => rfl
  | none => rfl

theorem takeItems_exact (l : List Nat) (rest : List Tok) :
    takeItems l.length (l.map Tok.itm ++ rest) = some (l, rest) := by
  induction l with
  | nil => rfl
  | cons a l ih => simp [takeItems, ih]

theorem parseDs_base (l : List Nat) (ts : List Tok) :
    parseDs (Tok.u16 1 :: Tok.u16 l.length :: (l.map Tok.itm ++ ts)) =
      prependUD [UD.baseU l] (parseDs ts) := by
  have hstep : parseDs (Tok.u16 1 :: Tok.u16 l.length :: (l.map Tok.itm ++ ts)) =
      match parseDsF ts.length ts with
      | some (r, hc, off) => some (UD.baseU l :: r, hc, off)
      | none => none := by
    simp only [parseDs, List.length_cons, parseDsF]
    rw [if_neg (by decide), if_neg (by decide), if_pos trivial, takeItems_exact]
    dsimp only
    rw [parseDsF_fuel ((l.map Tok.itm ++ ts).length + 1) ts.length ts
      (by simp; omega) le_rfl]
  rw [hstep, show parseDsF ts.length ts = parseDs ts from rfl]
  match hr : parseDs ts with
  | some (r, hc, off) => rfl
  | none => rfl

theorem parseDs_roll (s e : Nat) (ts : List Tok) :
    parseDs (Tok.u16 10 :: Tok.u64 s :: Tok.u64 e :: ts) =
      prependUD [UD.rollU s e] (parseDs ts) := by
  have hstep : parseDs (Tok.u16 10 :: Tok.u64 s :: Tok.u64 e :: ts) =
      match parseDsF (ts.length + 2) ts with
      | some (r, hc, off) => some (UD.rollU s e :: r, hc, off)
      | none => none := by
    simp only [parseDs, List.length_cons, parseDsF]
    rw [if_neg (by decide), if_neg (by decide), if_neg (by decide), if_neg (by decide),
      if_pos trivial]
  rw [hstep, parseDsF_fuel (ts.length + 2) ts.length ts (by omega) le_rfl,
    show parseDsF ts.length ts = parseDs ts from rfl]
  match hr : parseDs ts with
  | some (r, hc, off) => rfl
  | none => rfl

theorem parseDs_childItems (l : List Nat) (rest : List Tok) :
    parseDs ((l.flatMap (fun i => [Tok.u16 3, Tok.itm i])) ++ rest) =
      prependUD (l.map (fun i => UD.recU true i)) (parseDs rest) := by
  induction l with
  | nil =>
    rw [List.flatMap_nil, List.nil_append, List.map_nil, prependUD_nil]
  | cons a l ih =>
    have step := parseDs_rec true a (l.flatMap (fun i => [Tok.u16 3, Tok.itm i]) ++ rest)
    rw [show opNum true = 3 from rfl] at step
    rw [List.flatMap_cons, List.map_cons, List.append_assoc, List.cons_append,
      List.cons_append, List.nil_append, step, ih, ← prependUD_append]
    rfl

/-- Parsing the body tokens of a chain (followed by anything) yields the
chain's reconstructed delta list in front of the parse of the rest. -/
theorem parseDs_marshalBody :
    ∀ (c : Chain) (ms : Nat) (hi : IKey) (child full : Bool) (rest : List Tok),
      noFRS c → smallBases c →
      parseDs ((marshalBody ms c hi child full).1 ++ rest) =
        prependUD (bodyUDs child hi c) (parseDs rest) := by
  intro c
  induction c with
  | nilC =>
    intro ms hi child full rest hn hsb
    rw [show (marshalBody ms .nilC hi child full).1 = [] from rfl, List.nil_append,
      show bodyUDs child hi .nilC = [] from rfl, prependUD_nil]
  | recD h isIns itm next ih =>
    intro ms hi child full rest hn hsb
    by_cases hlt : ltK itm hi = true
    · rw [show (marshalBody ms (.recD h isIns itm next) hi child full).1 =
          [Tok.u16 (opNum isIns), Tok.itm itm] ++ (marshalBody ms next hi child full).1 from by
            simp [marshalBody, hlt]]
      simp only [List.cons_append, List.nil_append]
      rw [parseDs_rec isIns itm ((marshalBody ms next hi child full).1 ++ rest),
        ih ms hi child full rest hn hsb,
        show bodyUDs child hi (.recD h isIns itm next) =
          [UD.recU isIns itm] ++ bodyUDs child hi next from by simp [bodyUDs, hlt],
        prependUD_append]
    · rw [show (marshalBody ms (.recD h isIns itm next) hi child full).1 =
          (marshalBody ms next hi child full).1 from by simp [marshalBody, hlt]]
      rw [ih ms hi child full rest hn hsb,
        show bodyUDs child hi (.recD h isIns itm next) = bodyUDs child hi next from by
          simp [bodyUDs, hlt]]
  | split h itm next ih =>
    intro ms hi child full rest hn hsb
    rw [show (marshalBody ms (.split h itm next) hi child full).1 =
        Tok.u16 5 :: (marshalBody ms next (if ltK itm hi then IKey.key itm else hi) child full).1
        from rfl]
    rw [List.cons_append, parseDs_split,
      ih ms (if ltK itm hi then IKey.key itm else hi) child full rest hn hsb,
      show bodyUDs child hi (.split h itm next) =
        [UD.splitU] ++ bodyUDs child (if ltK itm hi then IKey.key itm else hi) next from rfl,
      prependUD_append]
  | merge h itm sibling next ihs ihn =>
    intro ms hi child full rest hn hsb
    rw [show (marshalBody ms (.merge h itm sibling next) hi child full).1 =
        (marshalBody 0 sibling hi true true).1 ++ (marshalBody ms next hi child full).1
        from rfl]
    rw [List.append_assoc,
      ihs 0 hi true true ((marshalBody ms next hi child full).1 ++ rest) hn.1 hsb.1,
      ihn ms hi child full rest hn.2 hsb.2,
      show bodyUDs child hi (.merge h itm sibling next) =
        bodyUDs true hi sibling ++ bodyUDs child hi next from rfl,
      prependUD_append]
  | basePg h items =>
    intro ms hi child full rest hn hsb
    cases child with
    | true =>
      rw [show (marshalBody ms (.basePg h items) hi true full).1 =
          (items.filter (fun i => ltK i hi)).flatMap (fun i => [Tok.u16 3, Tok.itm i])
          from rfl]
      rw [parseDs_childItems,
        show bodyUDs true hi (.basePg h items) =
          (items.filter (fun i => ltK i hi)).map (fun i => UD.recU true i) from rfl]
    | false =>
      have hcount : (items.filter (fun i => ltK i hi)).length % 2 ^ 16 =
          (items.filter (fun i => ltK i hi)).length := by
        have hle := List.length_filter_le (fun i => ltK i hi) items
        have hsb2 : items.length < 2 ^ 16 := hsb
        exact Nat.mod_eq_of_lt (by omega)
      rw [show (marshalBody ms (.basePg h items) hi false full).1 =
          Tok.u16 1 :: Tok.u16 ((items.filter (fun i => ltK i hi)).length % 2 ^ 16) ::
            (items.filter (fun i => ltK i hi)).map Tok.itm from rfl]
      rw [hcount, List.cons_append, List.cons_append, parseDs_base,
        show bodyUDs false hi (.basePg h items) =
          [UD.baseU (items.filter (fun i => ltK i hi))] from rfl]
  | flushD h offset dataSz numSegs isReloc next ih =>
    intro ms hi child full rest hn hsb
    exact absurd hn (by simp [noFRS])
  | rollback h s e next ih =>
    intro ms hi child full rest hn hsb
    rw [show (marshalBody ms (.rollback h s e next) hi child full).1 =
        Tok.u16 10 :: Tok.u64 s :: Tok.u64 e :: (marshalBody ms next hi child full).1
        from rfl]
    rw [List.cons_append, List.cons_append, List.cons_append, parseDs_roll,
      ih ms hi child full rest hn hsb,
      show bodyUDs child hi (.rollback h s e next) =
        [UD.rollU s e] ++ bodyUDs child hi next from rfl,
      prependUD_append]
  | removeD h next ih =>
    intro ms hi child full rest hn hsb
    rw [show (marshalBody ms (.removeD h next) hi child full).1 =
        (marshalBody ms next hi child full).1 from rfl]
    rw [ih ms hi child full rest hn hsb]
    rfl
  | metaD h next ih =>
    intro ms hi child full rest hn hsb
    rw [show (marshalBody ms (.metaD h next) hi child full).1 =
        (marshalBody ms next hi child full).1 from rfl]
    rw [ih ms hi child full rest hn hsb]
    rfl
  | swapout h offset numSegs =>
    intro ms hi child full rest hn hsb
    exact absurd hn (by simp [noFRS])

theorem recsOfUD_append (a b : List UD) :
    recsOfUD (a ++ b) = recsOfUD a ++ recsOfUD b := by
  induction a with
  | nil => rfl
  | cons u l ih =>
    match u with
    | UD.recU x i => simp [recsOfUD, ih]
    | UD.splitU => simp [recsOfUD, ih]
    | UD.baseU items => simp [recsOfUD, ih]
    | UD.rollU s e => simp [recsOfUD, ih]

/-- Whether a reconstructed delta is a base entry. -/
def isBaseU : UD → Bool
  | UD.baseU _ => true
  | _ => false

theorem baseOfUD_append_none (a b : List UD) (h : ∀ u ∈ a, isBaseU u = false) :
    baseOfUD (a ++ b) = baseOfUD b := by
  induction a with
  | nil => rfl
  | cons u l ih =>
    match u with
    | UD.recU x i =>
      rw [List.cons_append, show baseOfUD (UD.recU x i :: (l ++ b)) = baseOfUD (l ++ b) from rfl]
      exact ih (fun v hv => h v (List.mem_cons_of_mem _ hv))
    | UD.splitU =>
      rw [List.cons_append, show baseOfUD (UD.splitU :: (l ++ b)) = baseOfUD (l ++ b) from rfl]
      exact ih (fun v hv => h v (List.mem_cons_of_mem _ hv))
    | UD.rollU s e =>
      rw [List.cons_append, show baseOfUD (UD.rollU s e :: (l ++ b)) = baseOfUD (l ++ b) from rfl]
      exact ih (fun v hv => h v (List.mem_cons_of_mem _ hv))
    | UD.baseU items =>
      have := h (UD.baseU items) (List.mem_cons_self _ _)
      simp [isBaseU] at this

theorem bodyUDs_child_no_base (c : Chain) :
    ∀ hi, ∀ u ∈ bodyUDs true hi c, isBaseU u = false := by
  induction c with
  | nilC => intro hi u hu; cases hu
  | recD h isIns itm next ih =>
    intro hi u hu
    rcases List.mem_append.mp hu with hu | hu
    · by_cases hlt : ltK itm hi = true
      · rw [if_pos hlt] at hu
        rcases List.mem_cons.mp hu with rfl | hu2
        · rfl
        · cases hu2
      · rw [if_neg hlt] at hu
        cases hu
    · exact ih hi u hu
  | split h itm next ih =>
    intro hi u hu
    rcases List.mem_cons.mp hu with rfl | hu2
    · rfl
    · exact ih _ u hu2
  | merge h itm sibling next ihs ihn =>
    intro hi u hu
    rcases List.mem_append.mp hu with hu | hu
    · exact ihs hi u hu
    · exact ihn hi u hu
  | basePg h items =>
    intro hi u hu
    simp only [bodyUDs, if_pos] at hu
    obtain ⟨i, _, rfl⟩ := List.mem_map.mp hu
    rfl
  | flushD h offset dataSz numSegs isReloc next ih =>
    intro hi u hu
    cases hu
  | rollback h s e next ih =>
    intro hi u hu
    rcases List.mem_cons.mp hu with rfl | hu2
    · rfl
    · exact ih hi u hu2
  | removeD h next ih => exact ih
  | metaD h next ih => exact ih
  | swapout h offset numSegs =>
    intro hi u hu
    cases hu

theorem recsOfUD_bodyUDs (c : Chain) :
    ∀ (child : Bool) (hi : IKey),
      recsOfUD (bodyUDs child hi c) = logicalRecs child hi c := by
  induction c with
  | nilC => intro child hi; rfl
  | recD h isIns itm next ih =>
    intro child hi
    rw [show bodyUDs child hi (.recD h isIns itm next) =
      (if ltK itm hi then [UD.recU isIns itm] else []) ++ bodyUDs child hi next from rfl]
    rw [recsOfUD_append, ih child hi]
    by_cases hlt : ltK itm hi = true
    · simp [hlt, recsOfUD, logicalRecs]
    · simp [hlt, recsOfUD, logicalRecs]
  | split h itm next ih =>
    intro child hi
    rw [show bodyUDs child hi (.split h itm next) =
      UD.splitU :: bodyUDs child (if ltK itm hi then IKey.key itm else hi) next from rfl]
    rw [show recsOfUD (UD.splitU :: bodyUDs child (if ltK itm hi then IKey.key itm else hi) next) =
      recsOfUD (bodyUDs child (if ltK itm hi then IKey.key itm else hi) next) from rfl]
    rw [ih child _]
    rfl
  | merge h itm sibling next ihs ihn =>
    intro child hi
    rw [show bodyUDs child hi (.merge h itm sibling next) =
      bodyUDs true hi sibling ++ bodyUDs child hi next from rfl]
    rw [recsOfUD_append, ihs true hi, ihn child hi]
    rfl
  | basePg h items =>
    intro child hi
    cases child with
    | true =>
      rw [show bodyUDs true hi (.basePg h items) =
        (items.filter (fun i => ltK i hi)).map (fun i => UD.recU true i) from rfl]
      rw [show logicalRecs true hi (.basePg h items) =
        (items.filter (fun i => ltK i hi)).map (fun i => (true, i)) from rfl]
      induction items.filter (fun i => ltK i hi) with
      | nil => rfl
      | cons a l ih2 => simp [recsOfUD, ih2]
    | false => rfl
  | flushD h offset dataSz numSegs isReloc next ih => intro child hi; rfl
  | rollback h s e next ih =>
    intro child hi
    rw [show bodyUDs child hi (.rollback h s e next) =
      UD.rollU s e :: bodyUDs child hi next from rfl]
    rw [show recsOfUD (UD.rollU s e :: bodyUDs child hi next) =
      recsOfUD (bodyUDs child hi next) from rfl]
    rw [ih child hi]
    rfl
  | removeD h next ih => exact ih
  | metaD h next ih => exact ih
  | swapout h offset numSegs => intro child hi; rfl

theorem baseOfUD_bodyUDs (c : Chain) :
    ∀ (hi : IKey), baseOfUD (bodyUDs false hi c) = logicalBase hi c := by
  induction c with
  | nilC => intro hi; rfl
  | recD h isIns itm next ih =>
    intro hi
    rw [show bodyUDs false hi (.recD h isIns itm next) =
      (if ltK itm hi then [UD.recU isIns itm] else []) ++ bodyUDs false hi next from rfl]
    rw [baseOfUD_append_none _ _ ?_, ih hi]
    · rfl
    · intro u hu
      by_cases hlt : ltK itm hi = true
      · rw [if_pos hlt] at hu
        rcases List.mem_cons.mp hu with rfl | hu2
        · rfl
        · cases hu2
      · rw [if_neg hlt] at hu
        cases hu
  | split h itm next ih =>
    intro hi
    rw [show bodyUDs false hi (.split h itm next) =
      UD.splitU :: bodyUDs false (if ltK itm hi then IKey.key itm else hi) next from rfl]
    rw [show baseOfUD (UD.splitU :: bodyUDs false (if ltK itm hi then IKey.key itm else hi) next) =
      baseOfUD (bodyUDs false (if ltK itm hi then IKey.key itm else hi) next) from rfl]
    rw [ih _]
    rfl
  | merge h itm sibling next ihs ihn =>
    intro hi
    rw [show bodyUDs false hi (.merge h itm sibling next) =
      bodyUDs true hi sibling ++ bodyUDs false hi next from rfl]
    rw [baseOfUD_append_none _ _ (bodyUDs_child_no_base sibling hi), ihn hi]
    rfl
  | basePg h items => intro hi; rfl
  | flushD h offset dataSz numSegs isReloc next ih => intro hi; rfl
  | rollback h s e next ih =>
    intro hi
    rw [show bodyUDs false hi (.rollback h s e next) =
      UD.rollU s e :: bodyUDs false hi next from rfl]
    rw [show baseOfUD (UD.rollU s e :: bodyUDs false hi next) =
      baseOfUD (bodyUDs false hi next) from rfl]
    rw [ih hi]
    rfl
  | removeD h next ih => exact ih
  | metaD h next ih => exact ih
  | swapout h offset numSegs => intro hi; rfl

/-- C2: for a page whose chain holds no flush, reloc or swapout delta
(and whose `uint16` counters are in range), unmarshalling the bytes of a
full marshal reconstructs the same low key, high key, `chainLen` and
`numItems`, the same logical record deltas and base items in head-to-tail
order, and reports that no prev-offset chain follows. -/
theorem marshal_unmarshal_roundtrip (pg : PageR) (hH : Hdr)
    (hhead : headerOf pg.head = some hH)
    (hn : noFRS pg.head) (hsb : smallBases pg.head)
    (hcl : hH.chainLen < 2 ^ 16) (hni : hH.numItems < 2 ^ 16) :
    ∃ up, unmarshalDelta (MarshalToks pg 0) = some up ∧
      up.low = pg.low ∧ up.hiItm = hH.hiItm ∧
      up.chainLen = hH.chainLen ∧ up.numItems = hH.numItems ∧
      up.hasChain = false ∧ up.offset = 0 ∧
      recsOfUD up.ds = logicalRecs false hH.hiItm pg.head ∧
      baseOfUD up.ds = logicalBase hH.hiItm pg.head := by
  have hp : parseDs ((marshalBody 0 pg.head hH.hiItm false (decide (0 = 0))).1 ++ []) =
      prependUD (bodyUDs false hH.hiItm pg.head) (parseDs []) :=
    parseDs_marshalBody pg.head 0 hH.hiItm false (decide (0 = 0)) [] hn hsb
  rw [List.append_nil, parseDs_nil] at hp
  simp only [prependUD, List.append_nil] at hp
  refine ⟨⟨pg.low,
    stSetFlushed ((if (marshalBody 0 pg.head hH.hiItm false (decide (0 = 0))).2 = 0
      then stIncrVersion hH.state else hH.state) % 2 ^ 16),
    hH.chainLen % 2 ^ 16, hH.numItems % 2 ^ 16, hH.hiItm,
    bodyUDs false hH.hiItm pg.head, false, 0⟩, ?_, rfl, rfl,
    Nat.mod_eq_of_lt hcl, Nat.mod_eq_of_lt hni, rfl, rfl,
    recsOfUD_bodyUDs pg.head false hH.hiItm, baseOfUD_bodyUDs pg.head hH.hiItm⟩
  rw [MarshalToks, hhead]
  simp only
  rw [List.cons_append, List.cons_append, List.cons_append, List.cons_append,
    List.cons_append, List.nil_append]
  rw [unmarshalDelta]
  rw [hp]

/-- Witness for `marshal_unmarshal_roundtrip` at a concrete page. -/
theorem marshal_unmarshal_roundtrip_witness :
    ∃ up, unmarshalDelta (MarshalToks
        ⟨.min, .recD ⟨2, 3, 5, .key 10, none⟩ true 4
          (.basePg ⟨0, 3, 5, .key 10, none⟩ [1, 2, 3])⟩ 0) = some up ∧
      up.low = IKey.min ∧ up.hiItm = IKey.key 10 ∧
      up.chainLen = 2 ∧ up.numItems = 3 ∧
      up.hasChain = false ∧ up.offset = 0 ∧
      recsOfUD up.ds = logicalRecs false (IKey.key 10)
        (.recD ⟨2, 3, 5, .key 10, none⟩ true 4
          (.basePg ⟨0, 3, 5, .key 10, none⟩ [1, 2, 3])) ∧
      baseOfUD up.ds = logicalBase (IKey.key 10)
        (.recD ⟨2, 3, 5, .key 10, none⟩ true 4
          (.basePg ⟨0, 3, 5, .key 10, none⟩ [1, 2, 3])) :=
  marshal_unmarshal_roundtrip
    ⟨.min, .recD ⟨2, 3, 5, .key 10, none⟩ true 4
      (.basePg ⟨0, 3, 5, .key 10, none⟩ [1, 2, 3])⟩
    ⟨2, 3, 5, .key 10, none⟩ rfl trivial (by norm_num [smallBases]) (by decide) (by decide)

end Plasma
